import Mathlib

/-!
Verification development for the protoc-gen-doc documentation generator
(src/main.cpp). The C++ code is shallowly embedded: Qt strings (QString)
become explicit character lists, QVariant becomes an inductive type,
protobuf descriptors become Lean structures carrying exactly the data the
accessors of the source read, and the process-global generator context is
threaded explicitly through the functions that mutate it.
-/

namespace ProtocGenDoc

/-- QString is modelled as the sequence of its characters. -/
abbrev QStr := List Char

/-- Conversion from a Lean string literal to the QString model. -/
def qs (s : String) : QStr := s.data

/-- QChar::isSpace on the characters appearing in this development
(QString::trimmed strips whitespace at both ends). -/
def isQSpace (c : Char) : Bool := c.isWhitespace

/-- QString::trimmed: whitespace removed from both ends. -/
def qTrim (l : QStr) : QStr :=
  ((l.dropWhile isQSpace).reverse.dropWhile isQSpace).reverse

/-- QString::startsWith. -/
def qStartsWith (l p : QStr) : Bool := p.isPrefixOf l

/-- QString::left(n): the n leftmost characters; the whole string when
n is negative or at least the size (Qt documented behaviour). -/
def qLeft (l : QStr) (n : Int) : QStr :=
  if n < 0 ∨ (l.length : Int) ≤ n then l else l.take n.toNat

/-- QString::indexOf for a pattern, as an optional index. -/
def qIndexOf (pat : QStr) : QStr → Option Nat
  | [] => if pat = [] then some 0 else none
  | c :: cs =>
    if pat.isPrefixOf (c :: cs) then some 0
    else (qIndexOf pat cs).map (· + 1)

/-- QString::split on a single separator character. -/
def qSplitChar (sep : Char) : QStr → List QStr
  | [] => [[]]
  | c :: cs =>
    match qSplitChar sep cs with
    | [] => [[]]
    | h :: t => if c = sep then [] :: h :: t else (c :: h) :: t

/-- QStringList::join with a separator string. -/
def qJoin (sep : QStr) : List QStr → QStr
  | [] => []
  | [x] => x
  | x :: y :: t => x ++ sep ++ qJoin sep (y :: t)

/-- QString operator<, lexicographic by character. -/
def qless : QStr → QStr → Bool
  | [], [] => false
  | [], _ :: _ => true
  | _ :: _, [] => false
  | a :: as, b :: bs => if a < b then true else if b < a then false else qless as bs

theorem qless_asymm : ∀ a b : QStr, qless a b = true → qless b a = false
  | [], [], h => by simp [qless] at h
  | [], _ :: _, _ => by simp [qless]
  | _ :: _, [], h => by simp [qless] at h
  | a :: as, b :: bs, h => by
    simp only [qless] at h ⊢
    rcases lt_trichotomy a b with hab | hab | hab
    · simp [hab, asymm hab, lt_asymm hab]
    · subst hab
      simp only [lt_irrefl, if_false] at h ⊢
      exact qless_asymm as bs h
    · simp [hab, asymm hab, lt_asymm hab] at h

theorem qless_negtrans (a b c : QStr) (h1 : qless b a = false) (h2 : qless c b = false) :
    qless c a = false := by
  induction a generalizing b c with
  | nil =>
    cases c with
    | nil => rfl
    | cons cc cs => rfl
  | cons aa as ih =>
    cases c with
    | nil =>
      cases b with
      | nil => simp [qless] at h1
      | cons bb bs => simp [qless] at h2
    | cons cc cs =>
      cases b with
      | nil => simp [qless] at h1
      | cons bb bs =>
        simp only [qless] at h1 h2 ⊢
        by_cases hba : bb < aa
        · simp [hba] at h1
        by_cases hcb : cc < bb
        · simp [hcb] at h2
        have hca : ¬ cc < aa := fun h => absurd (lt_of_lt_of_le h (le_of_not_lt hba)) hcb
        simp only [if_neg hca]
        by_cases hac : aa < cc
        · simp [hac]
        · simp only [if_neg hac]
          by_cases hab : aa < bb
          · exact absurd (lt_of_lt_of_le hab (le_of_not_lt hcb)) hac
          · simp only [if_neg hba, if_neg hab] at h1
            by_cases hbc : bb < cc
            · have haeq : aa = bb := le_antisymm (le_of_not_lt hba) (le_of_not_lt hab)
              exact absurd (haeq ▸ hbc) hac
            · simp only [if_neg hcb, if_neg hbc] at h2
              exact ih bs cs h1 h2

/-- Strict comparator sort modelling std::sort: a stable insertion sort,
placing each element before the first later element that is not strictly
below it under the comparator. -/
def insertCmp (comp : α → α → Bool) (x : α) : List α → List α
  | [] => [x]
  | y :: ys => if comp y x then y :: insertCmp comp x ys else x :: y :: ys

def sortCmp (comp : α → α → Bool) : List α → List α
  | [] => []
  | x :: xs => insertCmp comp x (sortCmp comp xs)

theorem mem_insertCmp (comp : α → α → Bool) (x : α) :
    ∀ l (z : α), z ∈ insertCmp comp x l → z = x ∨ z ∈ l
  | [], z, h => by simp [insertCmp] at h; exact Or.inl h
  | y :: ys, z, h => by
    simp only [insertCmp] at h
    split at h
    · rcases List.mem_cons.mp h with h | h
      · exact Or.inr (h ▸ List.mem_cons_self _ _)
      · rcases mem_insertCmp comp x ys z h with h | h
        · exact Or.inl h
        · exact Or.inr (List.mem_cons_of_mem _ h)
    · rcases List.mem_cons.mp h with h | h
      · exact Or.inl h
      · exact Or.inr h

theorem mem_sortCmp (comp : α → α → Bool) :
    ∀ l (z : α), z ∈ sortCmp comp l → z ∈ l
  | [], z, h => by simp [sortCmp] at h
  | x :: xs, z, h => by
    rcases mem_insertCmp comp x (sortCmp comp xs) z h with h | h
    · exact h ▸ List.mem_cons_self _ _
    · exact List.mem_cons_of_mem _ (mem_sortCmp comp xs z h)

/-- Ascending order of a list with respect to a string key: no later
element has a key strictly below an earlier element's key. -/
def sortedByKey (k : α → QStr) (l : List α) : Prop :=
  List.Pairwise (fun x y => qless (k y) (k x) = false) l

theorem insertCmp_pairwise (comp : α → α → Bool) (k : α → QStr) (P : α → Prop)
    (hcomp : ∀ x y, P x → P y → comp x y = qless (k x) (k y)) (x : α) (hx : P x) :
    ∀ l, (∀ z ∈ l, P z) →
      List.Pairwise (fun u v => qless (k v) (k u) = false) l →
      List.Pairwise (fun u v => qless (k v) (k u) = false) (insertCmp comp x l)
  | [], _, _ => by simp [insertCmp]
  | y :: ys, hP, hpair => by
    have hy : ∀ z ∈ ys, qless (k z) (k y) = false := by
      intro z hz
      exact (List.pairwise_cons.mp hpair).1 z hz
    have hys : List.Pairwise (fun u v => qless (k v) (k u) = false) ys :=
      (List.pairwise_cons.mp hpair).2
    have hPy : P y := hP y (List.mem_cons_self _ _)
    have hPys : ∀ z ∈ ys, P z := fun z hz => hP z (List.mem_cons_of_mem _ hz)
    simp only [insertCmp]
    by_cases hcase : comp y x = true
    · simp only [hcase, if_true]
      refine List.pairwise_cons.mpr ⟨?_, insertCmp_pairwise comp k P hcomp x hx ys hPys hys⟩
      intro z hz
      rcases mem_insertCmp comp x ys z hz with rfl | hz
      · have : qless (k y) (k z) = true := by rw [← hcomp y z hPy hx]; exact hcase
        exact qless_asymm _ _ this
      · exact hy z hz
    · have hyx : qless (k y) (k x) = false := by
        rw [← hcomp y x hPy hx]; exact Bool.eq_false_iff.mpr hcase
      simp only [Bool.eq_false_iff.mpr hcase, if_false]
      refine List.pairwise_cons.mpr ⟨?_, hpair⟩
      intro z hz
      rcases List.mem_cons.mp hz with rfl | hz
      · exact hyx
      · exact qless_negtrans _ _ _ hyx (hy z hz)

theorem sortCmp_sortedByKey (comp : α → α → Bool) (k : α → QStr) (P : α → Prop)
    (hcomp : ∀ x y, P x → P y → comp x y = qless (k x) (k y)) :
    ∀ l, (∀ z ∈ l, P z) → sortedByKey k (sortCmp comp l)
  | [], _ => by simp [sortCmp, sortedByKey]
  | x :: xs, hP => by
    have hx : P x := hP x (List.mem_cons_self _ _)
    have hxs : ∀ z ∈ xs, P z := fun z hz => hP z (List.mem_cons_of_mem _ hz)
    have hsorted := sortCmp_sortedByKey comp k P hcomp xs hxs
    exact insertCmp_pairwise comp k P hcomp x hx (sortCmp comp xs)
      (fun z hz => hxs z (mem_sortCmp comp xs z hz)) hsorted

/-- Keys of the QVariantHash records built by the generator. The C++ code
uses string literals; a closed key alphabet is equivalent and keeps key
lookup decidable by computation. -/
inductive QKey where
  | message_name | message_long_name | message_full_name | message_description
  | message_fields | message_has_fields | message_has_extensions | message_extensions
  | enum_name | enum_long_name | enum_full_name | enum_description | enum_values
  | value_name | value_number | value_description
  | field_name | field_description | field_label | field_default_value
  | field_type | field_long_type | field_full_type
  | extension_name | extension_full_name | extension_long_name | extension_description
  | extension_label | extension_number | extension_default_value
  | extension_scope_type | extension_scope_long_type | extension_scope_full_type
  | extension_containing_type | extension_containing_long_type | extension_containing_full_type
  | extension_type | extension_long_type | extension_full_type
  | service_name | service_full_name | service_description | service_methods
  | method_name | method_description
  | method_request_type | method_request_full_type | method_request_long_type
  | method_response_type | method_response_full_type | method_response_long_type
  | file_name | file_description | file_package | file_messages | file_enums
  | file_has_services | file_services | file_has_extensions | file_extensions
deriving DecidableEq

/-- QVariant, restricted to the shapes the generator stores. -/
inductive QVariant where
  | nullV
  | strV (v : QStr)
  | boolV (v : Bool)
  | intV (v : Int)
  | listV (vs : List QVariant)
  | hashV (entries : List (QKey × QVariant))

/-- QVariant::toHash: the entries for a hash, empty otherwise. -/
def QVariant.toHash : QVariant → List (QKey × QVariant)
  | .hashV e => e
  | _ => []

/-- QVariant::toString as used by the comparator: the character data of a
string variant; a default-constructed (null) variant converts to the empty
string, which is all the comparator ever reads from non-string variants. -/
def QVariant.toQStr : QVariant → QStr
  | .strV v => v
  | _ => []

/-- QHash lookup with operator[]: the stored value, or a
default-constructed QVariant when the key is absent. -/
def hashGet : List (QKey × QVariant) → QKey → QVariant
  | [], _ => .nullV
  | (k, v) :: rest, key => if k = key then v else hashGet rest key

/-- Value of a key in a variant, as a string (the comparator's read path). -/
def keyStr (v : QVariant) (k : QKey) : QStr := (hashGet v.toHash k).toQStr

/-- longNameLessThan from main.cpp: the comparator used when sorting the
message, enum, service and extension lists of a file. -/
def longNameLessThan (v1 v2 : QVariant) : Bool :=
  if qless (keyStr v1 .message_long_name) (keyStr v2 .message_long_name) then true
  else if qless (keyStr v1 .enum_long_name) (keyStr v2 .enum_long_name) then true
  else qless (keyStr v1 .extension_long_name) (keyStr v2 .extension_long_name)

theorem hashGet_eq_null_of_not_mem :
    ∀ (l : List (QKey × QVariant)) (k : QKey), (∀ p ∈ l, p.1 ≠ k) → hashGet l k = .nullV
  | [], _, _ => rfl
  | (k', v) :: rest, k, h => by
    have hne : k' ≠ k := h (k', v) (List.mem_cons_self _ _)
    simp only [hashGet, if_neg hne]
    exact hashGet_eq_null_of_not_mem rest k fun p hp => h p (List.mem_cons_of_mem _ hp)

/-- Descriptor identity for naming purposes: name, full name and the
containing-type chain walked by longName. -/
inductive TypeRef where
  | mk (name : QStr) (fullName : QStr) (containing : Option TypeRef)

def TypeRef.name : TypeRef → QStr
  | .mk n _ _ => n

def TypeRef.fullName : TypeRef → QStr
  | .mk _ f _ => f

def TypeRef.containing : TypeRef → Option TypeRef
  | .mk _ _ c => c

/-- longName from main.cpp: empty for a null descriptor, the bare name for
a top-level element, otherwise the enclosing type's long name, a dot and
the element's own name. -/
def longName : Option TypeRef → QStr
  | none => []
  | some (.mk n _ none) => n
  | some (.mk n _ (some p)) => longName (some p) ++ qs "." ++ n
termination_by o => sizeOf o
decreasing_by simp_wf; omega

/-- Field labels (optional / repeated / required). -/
inductive FLabel where
  | lOptional | lRepeated | lRequired
deriving DecidableEq

/-- FieldDescriptor::Type. -/
inductive FType where
  | tdouble | tfloat | tint64 | tuint64 | tint32 | tfixed64 | tfixed32 | tbool
  | tstring | tgroup | tmessage | tbytes | tuint32 | tenum | tsfixed32 | tsfixed64
  | tsint32 | tsint64
deriving DecidableEq

/-- FieldDescriptor::CppType. -/
inductive CppType where
  | cppInt32 | cppInt64 | cppUInt32 | cppUInt64 | cppDouble | cppFloat | cppBool
  | cppEnum | cppString | cppMessage
deriving DecidableEq

/-- Field (or extension) descriptor data read by the generator. The
referenced message/enum type slots are meaningful only when ftype says so,
mirroring the accessor preconditions of the C++ API. Float and double
default payloads are carried as their decimal rendering, since IEEE
formatting lies outside this embedding. -/
structure FieldD where
  name : QStr
  fullName : QStr
  number : Int
  label : FLabel
  ftype : FType
  cppType : CppType
  isExtension : Bool
  extensionScope : Option TypeRef
  containingType : Option TypeRef
  messageType : TypeRef
  enumTypeRef : TypeRef
  hasDefault : Bool
  defaultString : QStr
  defaultBool : Bool
  defaultInt32 : Int
  defaultInt64 : Int
  defaultUInt32 : Nat
  defaultUInt64 : Nat
  defaultFloatRepr : QStr
  defaultDoubleRepr : QStr
  defaultEnumName : QStr
  leading : QStr
  trailing : QStr

/-- Template specialization of longName for fields: an extension follows
its extension scope, an ordinary field its containing type. -/
def longNameField (fd : FieldD) : QStr :=
  if fd.isExtension then longName fd.extensionScope ++ qs "." ++ fd.name
  else longName fd.containingType ++ qs "." ++ fd.name

/-- Removal of one leading space per line, the multiline regex
replacement of "^ " by the empty string. -/
def stripLineSpace (s : QStr) : QStr :=
  List.intercalate (qs "\n")
    ((qSplitChar '\n' s).map fun l => if qStartsWith l (qs " ") then l.drop 1 else l)

/-- One comment block as descriptionOf consumes it: honored only when the
raw text left by the protobuf parser starts with a star or a slash
(documentation syntax), with that mark dropped and one leading space
stripped per line. -/
def docCommentPart (raw : QStr) : QStr :=
  if qStartsWith raw (qs "*") || qStartsWith raw (qs "/") then
    stripLineSpace (raw.drop 1)
  else []

/-- Concatenation of the honored leading and trailing comments. -/
def combinedComments (leading trailing : QStr) : QStr :=
  docCommentPart leading ++ docCommentPart trailing

/-- descriptionOf from main.cpp for elements with a source location:
returns the description together with the exclusion flag; a trimmed
description starting with the @exclude marker has the marker stripped and
excludes the element unless no-exclude was configured. -/
def descriptionOf (noExclude : Bool) (leading trailing : QStr) : QStr × Bool :=
  let d := qTrim (combinedComments leading trailing)
  if qStartsWith d (qs "@exclude") then (d.drop 8, !noExclude) else (d, false)

/-- QByteArray(value.c_str()): the bytes up to the first NUL. -/
def cStrBytes (s : QStr) : QStr := s.takeWhile fun c => c ≠ Char.ofNat 0

/-- Lowercase hex digit. -/
def hexDigit (n : Nat) : Char :=
  if n < 10 then Char.ofNat (48 + n) else Char.ofNat (87 + n)

/-- QByteArray::toHex: two lowercase hex digits per byte. -/
def toHexQ (s : QStr) : QStr :=
  s.foldr (fun c acc => hexDigit (c.toNat % 256 / 16) :: hexDigit (c.toNat % 16) :: acc) []

/-- QString::number on a signed integer. -/
def qNumber (i : Int) : QStr := qs (toString i)

/-- QString::number on an unsigned integer. -/
def qNumberNat (n : Nat) : QStr := qs (toString n)

/-- scalarTypeName from main.cpp. -/
def scalarTypeName : FType → QStr
  | .tbool => qs "bool"
  | .tbytes => qs "bytes"
  | .tdouble => qs "double"
  | .tfixed32 => qs "fixed32"
  | .tfixed64 => qs "fixed64"
  | .tfloat => qs "float"
  | .tint32 => qs "int32"
  | .tint64 => qs "int64"
  | .tsfixed32 => qs "sfixed32"
  | .tsfixed64 => qs "sfixed64"
  | .tsint32 => qs "sint32"
  | .tsint64 => qs "sint64"
  | .tstring => qs "string"
  | .tuint32 => qs "uint32"
  | .tuint64 => qs "uint64"
  | _ => qs "<unknown>"

/-- labelName from main.cpp (the switch default is unreachable for the
three-valued label enum). -/
def labelName : FLabel → QStr
  | .lOptional => qs "optional"
  | .lRepeated => qs "repeated"
  | .lRequired => qs "required"

/-- defaultValue from main.cpp: type-directed formatting of a field's
default value; empty when no default is present. -/
def defaultValue (fd : FieldD) : QStr :=
  if fd.hasDefault then
    match fd.cppType with
    | .cppString =>
      if fd.ftype = .tstring then qs "\"" ++ fd.defaultString ++ qs "\""
      else if fd.ftype = .tbytes then qs "0x" ++ toHexQ (cStrBytes fd.defaultString)
      else qs "Unknown"
    | .cppBool => if fd.defaultBool then qs "true" else qs "false"
    | .cppFloat => fd.defaultFloatRepr
    | .cppDouble => fd.defaultDoubleRepr
    | .cppInt32 => qNumber fd.defaultInt32
    | .cppInt64 => qNumber fd.defaultInt64
    | .cppUInt32 => qNumberNat fd.defaultUInt32
    | .cppUInt64 => qNumberNat fd.defaultUInt64
    | .cppEnum => fd.defaultEnumName
    | .cppMessage => qs "Unknown"
  else []

/-- Type-information entries shared by addField, keyed per kind. -/
def fieldTypeInfo (fd : FieldD) : List (QKey × QVariant) :=
  if fd.ftype = .tmessage ∨ fd.ftype = .tgroup then
    [(.field_type, .strV fd.messageType.name),
     (.field_long_type, .strV (longName (some fd.messageType))),
     (.field_full_type, .strV fd.messageType.fullName)]
  else if fd.ftype = .tenum then
    [(.field_type, .strV fd.enumTypeRef.name),
     (.field_long_type, .strV (longName (some fd.enumTypeRef))),
     (.field_full_type, .strV fd.enumTypeRef.fullName)]
  else
    [(.field_type, .strV (scalarTypeName fd.ftype)),
     (.field_long_type, .strV (scalarTypeName fd.ftype)),
     (.field_full_type, .strV (scalarTypeName fd.ftype))]

/-- addField from main.cpp. -/
def addField (ne : Bool) (fd : FieldD) (fields : List QVariant) : List QVariant :=
  let de := descriptionOf ne fd.leading fd.trailing
  if de.2 then fields
  else
    fields ++ [.hashV
      ([(.field_name, .strV fd.name), (.field_description, .strV de.1),
        (.field_label, .strV (labelName fd.label)),
        (.field_default_value, .strV (defaultValue fd))] ++ fieldTypeInfo fd)]

/-- Type-information entries of addExtension. -/
def extensionTypeInfo (fd : FieldD) : List (QKey × QVariant) :=
  if fd.ftype = .tmessage ∨ fd.ftype = .tgroup then
    [(.extension_type, .strV fd.messageType.name),
     (.extension_long_type, .strV (longName (some fd.messageType))),
     (.extension_full_type, .strV fd.messageType.fullName)]
  else if fd.ftype = .tenum then
    [(.extension_type, .strV fd.enumTypeRef.name),
     (.extension_long_type, .strV (longName (some fd.enumTypeRef))),
     (.extension_full_type, .strV fd.enumTypeRef.fullName)]
  else
    [(.extension_type, .strV (scalarTypeName fd.ftype)),
     (.extension_long_type, .strV (scalarTypeName fd.ftype)),
     (.extension_full_type, .strV (scalarTypeName fd.ftype))]

/-- Scope and containing-type entries of addExtension, present only for an
extension whose respective descriptor pointers are non-null. -/
def extensionScopeInfo (fd : FieldD) : List (QKey × QVariant) :=
  if fd.isExtension then
    (match fd.extensionScope with
     | some d =>
       [(.extension_scope_type, .strV d.name),
        (.extension_scope_long_type, .strV (longName (some d))),
        (.extension_scope_full_type, .strV d.fullName)]
     | none => []) ++
    (match fd.containingType with
     | some d =>
       [(.extension_containing_type, .strV d.name),
        (.extension_containing_long_type, .strV (longName (some d))),
        (.extension_containing_full_type, .strV d.fullName)]
     | none => [])
  else []

/-- addExtension from main.cpp. -/
def addExtension (ne : Bool) (fd : FieldD) (extensions : List QVariant) : List QVariant :=
  let de := descriptionOf ne fd.leading fd.trailing
  if de.2 then extensions
  else
    extensions ++ [.hashV
      ([(.extension_name, .strV fd.name), (.extension_full_name, .strV fd.fullName),
        (.extension_long_name, .strV (longNameField fd)),
        (.extension_description, .strV de.1),
        (.extension_label, .strV (labelName fd.label)),
        (.extension_number, .strV (qNumber fd.number)),
        (.extension_default_value, .strV (defaultValue fd))] ++
       extensionScopeInfo fd ++ extensionTypeInfo fd)]

/-- Enum value descriptor data. -/
structure EnumValueD where
  name : QStr
  number : Int
  leading : QStr
  trailing : QStr

/-- Enum descriptor data. -/
structure EnumD where
  ref : TypeRef
  fullName : QStr
  leading : QStr
  trailing : QStr
  values : List EnumValueD

/-- Loop body of addEnum over the enum's values: excluded values are
skipped, the others are appended in declaration order. -/
def enumValueRecords (ne : Bool) : List EnumValueD → List QVariant → List QVariant
  | [], acc => acc
  | v :: rest, acc =>
    let de := descriptionOf ne v.leading v.trailing
    enumValueRecords ne rest
      (if de.2 then acc
       else acc ++ [.hashV [(.value_name, .strV v.name), (.value_number, .intV v.number),
         (.value_description, .strV de.1)]])

/-- addEnum from main.cpp. -/
def addEnum (ne : Bool) (e : EnumD) (enums : List QVariant) : List QVariant :=
  let de := descriptionOf ne e.leading e.trailing
  if de.2 then enums
  else
    enums ++ [.hashV
      [(.enum_name, .strV e.ref.name), (.enum_long_name, .strV (longName (some e.ref))),
       (.enum_full_name, .strV e.fullName), (.enum_description, .strV de.1),
       (.enum_values, .listV (enumValueRecords ne e.values []))]]

/-- Service method descriptor data. -/
structure MethodD where
  name : QStr
  leading : QStr
  trailing : QStr
  inputType : TypeRef
  outputType : TypeRef

/-- Service descriptor data. -/
structure ServiceD where
  name : QStr
  fullName : QStr
  leading : QStr
  trailing : QStr
  methods : List MethodD

/-- Loop body of addService over the service's methods. -/
def methodRecords (ne : Bool) : List MethodD → List QVariant → List QVariant
  | [], acc => acc
  | m :: rest, acc =>
    let de := descriptionOf ne m.leading m.trailing
    methodRecords ne rest
      (if de.2 then acc
       else acc ++ [.hashV
         [(.method_name, .strV m.name), (.method_description, .strV de.1),
          (.method_request_type, .strV m.inputType.name),
          (.method_request_full_type, .strV m.inputType.fullName),
          (.method_request_long_type, .strV (longName (some m.inputType))),
          (.method_response_type, .strV m.outputType.name),
          (.method_response_full_type, .strV m.outputType.fullName),
          (.method_response_long_type, .strV (longName (some m.outputType)))]])

/-- addService from main.cpp. -/
def addService (ne : Bool) (s : ServiceD) (services : List QVariant) : List QVariant :=
  let de := descriptionOf ne s.leading s.trailing
  if de.2 then services
  else
    services ++ [.hashV
      [(.service_name, .strV s.name), (.service_full_name, .strV s.fullName),
       (.service_description, .strV de.1),
       (.service_methods, .listV (methodRecords ne s.methods []))]]

mutual
/-- Message descriptor data: identity, comments, fields, nested
extensions, nested enums and nested messages. -/
inductive MsgD where
  | mk (ref : TypeRef) (fullName : QStr) (leading : QStr) (trailing : QStr)
       (fields : List FieldD) (extensions : List FieldD) (enums : List EnumD)
       (nested : MsgList)
/-- List of message descriptors (mutual with MsgD). -/
inductive MsgList where
  | nil
  | cons (hd : MsgD) (tl : MsgList)
end

/-- Loop over a field list with addField, as in addMessages. -/
def addFieldList (ne : Bool) : List FieldD → List QVariant → List QVariant
  | [], acc => acc
  | f :: rest, acc => addFieldList ne rest (addField ne f acc)

/-- Loop over an extension list with addExtension. -/
def addExtensionList (ne : Bool) : List FieldD → List QVariant → List QVariant
  | [], acc => acc
  | f :: rest, acc => addExtensionList ne rest (addExtension ne f acc)

/-- Loop over an enum list with addEnum. -/
def addEnumList (ne : Bool) : List EnumD → List QVariant → List QVariant
  | [], acc => acc
  | e :: rest, acc => addEnumList ne rest (addEnum ne e acc)

/-- Loop over a service list with addService. -/
def addServiceList (ne : Bool) : List ServiceD → List QVariant → List QVariant
  | [], acc => acc
  | s :: rest, acc => addServiceList ne rest (addService ne s acc)

mutual
/-- addMessages from main.cpp: an excluded message contributes nothing at
all (its whole subtree is skipped); otherwise its record is appended to
the flat message list, nested messages are recursed into, and nested
enums are appended to the shared enum list. -/
def addMessages (ne : Bool) (d : MsgD) (acc : List QVariant × List QVariant) :
    List QVariant × List QVariant :=
  match d with
  | .mk ref fullName leading trailing fields extensions enums nested =>
    let de := descriptionOf ne leading trailing
    if de.2 then acc
    else
      let fieldList := addFieldList ne fields []
      let extList := addExtensionList ne extensions []
      let message : QVariant := .hashV
        [(.message_name, .strV ref.name), (.message_long_name, .strV (longName (some ref))),
         (.message_full_name, .strV fullName), (.message_description, .strV de.1),
         (.message_fields, .listV fieldList),
         (.message_has_fields, .boolV (!fieldList.isEmpty)),
         (.message_has_extensions, .boolV (!extList.isEmpty)),
         (.message_extensions, .listV extList)]
      let acc2 := addMessagesList ne nested (acc.1 ++ [message], acc.2)
      (acc2.1, addEnumList ne enums acc2.2)
/-- Loop over nested messages with addMessages. -/
def addMessagesList (ne : Bool) (l : MsgList) (acc : List QVariant × List QVariant) :
    List QVariant × List QVariant :=
  match l with
  | .nil => acc
  | .cons d tl => addMessagesList ne tl (addMessages ne d acc)
end

/-- Inner loop of the whole-file scanner over a run of /// lines: while
the stream is not at its end and the current line is a /// comment, the
line's content plus a newline is appended and the next line is read and
trimmed. A run reaching the end of the stream stops without appending the
line read last. -/
def slashAcc : QStr → List QStr → QStr → QStr
  | _, [], acc => acc
  | line, r :: rs, acc =>
    if qStartsWith line (qs "///") then
      slashAcc (qTrim r) rs
        (acc ++ (if qStartsWith line (qs "/// ") then line.drop 4 else line.drop 3) ++ qs "\n")
    else acc

/-- Inner loop of the whole-file scanner inside a multi-line comment
block: lines are accumulated (with one layer of star decoration stripped)
until the closing token, whose line contributes the text before it. On an
unterminated block the C++ loop never terminates (readLine at the end of
a QTextStream yields a null line forever); the model stops at the end of
input, a case outside every claim. -/
def blockScan : QStr → List QStr → QStr → QStr
  | line, rest, acc =>
    match qIndexOf (qs "*/") line with
    | none =>
      let start := (if qStartsWith line (qs "*") then 1 else 0) +
                   (if qStartsWith line (qs "* ") then 1 else 0)
      let acc2 := acc ++ line.drop start ++ qs "\n"
      match rest with
      | [] => acc2
      | r :: rs => blockScan (qTrim r) rs acc2
    | some e =>
      let start := (if qStartsWith line (qs "*") ∧ ¬ qStartsWith line (qs "*/") then 1 else 0) +
                   (if qStartsWith line (qs "* ") then 1 else 0)
      acc ++ (line.drop start).take (e - start)

/-- Whole-file comment scanner of descriptionOf(FileDescriptor): skip
blank lines, then handle a /// run (dropping one trailing character,
normally the final newline) or a multi-line documentation block that is
not the empty block, and stop after the first non-blank line either way. -/
def fileScan : List QStr → QStr
  | [] => []
  | l :: rest =>
    let line := qTrim l
    if line = [] then fileScan rest
    else if qStartsWith line (qs "///") then
      let d := slashAcc line rest []
      qLeft d ((d.length : Int) - 1)
    else if qStartsWith line (qs "/**") ∧ ¬ qStartsWith line (qs "/***/") then
      blockScan (line.drop 2) rest []
    else []

/-- File descriptor data. The id field models object identity, used by
the pointer comparisons against the front and back of the parsed file
list. -/
structure FileD where
  id : Nat
  name : QStr
  package : QStr
  messageTypes : MsgList
  enumTypes : List EnumD
  services : List ServiceD
  extensions : List FieldD

/-- External world of the generator: schema files on disk (by name, as
line lists), I/O error texts, the bundled template resources, and the
mustache engine treated as a black box that may report an error. -/
structure Env where
  protoFiles : QStr → Option (List QStr)
  ioErrText : QStr → QStr
  supportedFormats : List QStr
  templates : QStr → Option QStr
  tplErrText : QStr → QStr
  scalarTypesJson : Option QStr
  mustacheErr : QStr → List QVariant → QStr

/-- descriptionOf for a whole file: open the file (an open failure
produces the error "fileName: errorString" and an empty description),
scan its leading lines, then apply the same trim and exclusion check as
for other elements. -/
def descriptionOfFile (env : Env) (noExclude : Bool) (f : FileD) : QStr × Bool × QStr :=
  match env.protoFiles f.name with
  | none => ([], false, f.name ++ qs ": " ++ env.ioErrText f.name)
  | some lines =>
    let d := qTrim (fileScan lines)
    if qStartsWith d (qs "@exclude") then (d.drop 8, !noExclude, [])
    else (d, false, [])

/-- QFileInfo::fileName: the component after the last slash. -/
def qFileName (p : QStr) : QStr := (p.reverse.takeWhile fun c => c ≠ '/').reverse

/-- addFile from main.cpp: the file's description is extracted (a failed
open records an error but the record is still built), an excluded file
contributes no record, and the four sibling lists are each passed through
std::sort with longNameLessThan before attachment. -/
def addFile (env : Env) (ne : Bool) (f : FileD) (files : List QVariant) (err : QStr) :
    List QVariant × QStr :=
  let dr := descriptionOfFile env ne f
  let err2 := if dr.2.2 = [] then err else dr.2.2
  if dr.2.1 then (files, err2)
  else
    let ms := addMessagesList ne f.messageTypes ([], [])
    let messages := sortCmp longNameLessThan ms.1
    let enums := sortCmp longNameLessThan (addEnumList ne f.enumTypes ms.2)
    let services := sortCmp longNameLessThan (addServiceList ne f.services [])
    let extensions := sortCmp longNameLessThan (addExtensionList ne f.extensions [])
    (files ++ [.hashV
      [(.file_name, .strV (qFileName f.name)), (.file_description, .strV dr.1),
       (.file_package, .strV f.package),
       (.file_messages, .listV messages), (.file_enums, .listV enums),
       (.file_has_services, .boolV (!services.isEmpty)), (.file_services, .listV services),
       (.file_has_extensions, .boolV (!extensions.isEmpty)),
       (.file_extensions, .listV extensions)]], err2)

/-- Generator context: the process-global DocGeneratorContext, threaded
explicitly. Static initialization gives null strings, a false flag and an
empty file list. -/
structure GenCtx where
  template_ : QStr
  outputFileName : QStr
  noExclude : Bool
  files : List QVariant

def initialContext : GenCtx := ⟨[], [], false, []⟩

/-- Usage string, with the supported formats joined into the %1 slot. -/
def usage (env : Env) : QStr :=
  qs "Usage: --doc_out=" ++ qJoin (qs "|") env.supportedFormats ++
  qs "|<TEMPLATE_FILENAME>,<OUT_FILENAME>[,no-exclude]:<OUT_DIR>"

/-- readTemplate from main.cpp: a supported format name resolves to the
bundled resource path, anything else is taken as a file name; an open
failure records "fileName: errorString" and yields the null string. -/
def readTemplate (env : Env) (name : QStr) : QStr × QStr :=
  let fileName := if name ∈ env.supportedFormats
    then qs ":/templates/" ++ name ++ qs ".mustache" else name
  match env.templates fileName with
  | none => ([], fileName ++ qs ": " ++ env.tplErrText fileName)
  | some c => (c, [])

/-- parseParameter from main.cpp: the comma-separated parameter must have
two or three tokens, a third token must equal "no-exclude" (setting the
override flag), the template is read unless the selector is "json", and
the output file name and flag are stored. Failure paths leave the context
untouched. After the guards, having three tokens is equivalent to the
C++ noExclude assignment. -/
def parseParameter (env : Env) (parameter : QStr) (ctx : GenCtx) : GenCtx × Bool × QStr :=
  let tokens := qSplitChar ',' parameter
  if ¬ (tokens.length = 2 ∨ tokens.length = 3) then (ctx, false, usage env)
  else if tokens.length = 3 ∧ tokens.getD 2 [] ≠ qs "no-exclude" then (ctx, false, usage env)
  else
    let tr := if tokens.getD 0 [] ≠ qs "json"
      then readTemplate env (tokens.getD 0 []) else (ctx.template_, [])
    ({ template_ := tr.1, outputFileName := tokens.getD 1 [],
       noExclude := tokens.length = 3, files := ctx.files }, true, tr.2)

/-- Output artifact of the render step: either the accumulated file list
serialized directly as JSON, or the result of feeding the template and
the file list through the template engine. -/
inductive RenderOut where
  | jsonOut (files : List QVariant)
  | tplOut (template : QStr) (files : List QVariant)

/-- render from main.cpp: an empty template string selects raw JSON
serialization of the accumulated files (QJsonDocument::fromVariant of a
variant list always yields a valid document); otherwise the scalar-type
table resource is loaded and the template engine runs, either of which
can fail. On success exactly one artifact is produced. -/
def render (env : Env) (ctx : GenCtx) : Option RenderOut × QStr :=
  if ctx.template_ = [] then (some (.jsonOut ctx.files), [])
  else
    match env.scalarTypesJson with
    | none =>
      (none, qs ":/templates/scalar_value_types.json: " ++
        env.tplErrText (qs ":/templates/scalar_value_types.json"))
    | some _ =>
      let e := env.mustacheErr ctx.template_ ctx.files
      if e = [] then (some (.tplOut ctx.template_ ctx.files), []) else (none, e)

/-- Result of one DocGenerator::Generate invocation: the context after
the call, the returned success flag, whether the render step was invoked,
and the error string. -/
structure GenRes where
  ctx : GenCtx
  ok : Bool
  rendered : Bool
  err : QStr

/-- DocGenerator::Generate from main.cpp: parse the parameter on the
invocation whose file is the front of the parsed-file list, add the
current file (aborting if an error was recorded), and render once on the
invocation whose file is the back of the list. -/
def Generate (env : Env) (parsedFiles : List FileD) (fd : FileD) (parameter : QStr)
    (ctx : GenCtx) : GenRes :=
  let isFirst : Bool := match parsedFiles.head? with
    | some f => f.id == fd.id
    | none => false
  let isLast : Bool := match parsedFiles.getLast? with
    | some f => f.id == fd.id
    | none => false
  let pr := if isFirst then parseParameter env parameter ctx else (ctx, true, [])
  if ¬ pr.2.1 then ⟨ctx, false, false, pr.2.2⟩
  else
    let af := addFile env pr.1.noExclude fd pr.1.files pr.2.2
    let ctx2 := { pr.1 with files := af.1 }
    if af.2 ≠ [] then ⟨ctx2, false, false, af.2⟩
    else if isLast then
      let r := render env ctx2
      match r.1 with
      | some _ => ⟨ctx2, true, true, []⟩
      | none => ⟨ctx2, false, true, r.2⟩
    else ⟨ctx2, true, false, []⟩

/-- Result of a whole run: final context, overall success, the render
invocations (invocation index paired with the file list passed to the
render step), and the error of the aborting invocation if any. -/
structure RunRes where
  ctx : GenCtx
  ok : Bool
  renders : List (Nat × List QVariant)
  err : QStr

/-- Host loop from invocation i onward: protoc invokes the generator once
per file in order and stops at the first failure. -/
def runFrom (env : Env) (parameter : QStr) (parsedFiles : List FileD) :
    List FileD → Nat → GenCtx → RunRes
  | [], _, ctx => ⟨ctx, true, [], []⟩
  | fd :: rest, i, ctx =>
    let g := Generate env parsedFiles fd parameter ctx
    let ev := if g.rendered then [(i, g.ctx.files)] else []
    if g.ok then
      let rr := runFrom env parameter parsedFiles rest (i + 1) g.ctx
      ⟨rr.ctx, rr.ok, ev ++ rr.renders, rr.err⟩
    else ⟨g.ctx, false, ev, g.err⟩

/-- One whole run over the host-provided ordered file list, starting from
the statically initialized generator context. -/
def runAll (env : Env) (parameter : QStr) (inputs : List FileD) : RunRes :=
  runFrom env parameter inputs inputs 0 initialContext

/-- QVariant::toList as used on the stored sibling lists. -/
def QVariant.toList : QVariant → List QVariant
  | .listV l => l
  | _ => []

def fileMessagesOf (v : QVariant) : List QVariant := (hashGet v.toHash .file_messages).toList

def fileEnumsOf (v : QVariant) : List QVariant := (hashGet v.toHash .file_enums).toList

def fileServicesOf (v : QVariant) : List QVariant := (hashGet v.toHash .file_services).toList

def fileExtensionsOf (v : QVariant) : List QVariant :=
  (hashGet v.toHash .file_extensions).toList

/-- Message records carry no enum or extension long-name key. -/
def msgShape (v : QVariant) : Prop :=
  hashGet v.toHash .enum_long_name = .nullV ∧ hashGet v.toHash .extension_long_name = .nullV

/-- Enum records carry no message or extension long-name key. -/
def enumShape (v : QVariant) : Prop :=
  hashGet v.toHash .message_long_name = .nullV ∧ hashGet v.toHash .extension_long_name = .nullV

/-- Extension records carry no message or enum long-name key. -/
def extShape (v : QVariant) : Prop :=
  hashGet v.toHash .message_long_name = .nullV ∧ hashGet v.toHash .enum_long_name = .nullV

theorem mem_addEnum (ne : Bool) (e : EnumD) (acc : List QVariant) :
    ∀ v ∈ addEnum ne e acc, v ∈ acc ∨ enumShape v := by
  intro v hv
  simp only [addEnum] at hv
  split at hv
  · exact Or.inl hv
  · rcases List.mem_append.mp hv with hv | hv
    · exact Or.inl hv
    · rcases List.mem_singleton.mp hv with rfl
      exact Or.inr ⟨rfl, rfl⟩

theorem mem_addEnumList (ne : Bool) :
    ∀ (es : List EnumD) (acc : List QVariant) (v : QVariant),
      v ∈ addEnumList ne es acc → v ∈ acc ∨ enumShape v
  | [], acc, v, hv => Or.inl hv
  | e :: rest, acc, v, hv => by
    rcases mem_addEnumList ne rest (addEnum ne e acc) v hv with hv | hv
    · exact mem_addEnum ne e acc v hv
    · exact Or.inr hv

theorem extensionScopeInfo_keys (fd : FieldD) :
    ∀ p ∈ extensionScopeInfo fd,
      p.1 = .extension_scope_type ∨ p.1 = .extension_scope_long_type ∨
      p.1 = .extension_scope_full_type ∨ p.1 = .extension_containing_type ∨
      p.1 = .extension_containing_long_type ∨ p.1 = .extension_containing_full_type := by
  intro p hp
  unfold extensionScopeInfo at hp
  split at hp
  · rcases List.mem_append.mp hp with hp | hp
    · split at hp
      · simp only [List.mem_cons, List.mem_singleton, List.not_mem_nil, or_false] at hp
        rcases hp with rfl | rfl | rfl <;> simp
      · simp at hp
    · split at hp
      · simp only [List.mem_cons, List.mem_singleton, List.not_mem_nil, or_false] at hp
        rcases hp with rfl | rfl | rfl <;> simp
      · simp at hp
  · simp at hp

theorem extensionTypeInfo_keys (fd : FieldD) :
    ∀ p ∈ extensionTypeInfo fd,
      p.1 = .extension_type ∨ p.1 = .extension_long_type ∨ p.1 = .extension_full_type := by
  intro p hp
  unfold extensionTypeInfo at hp
  split at hp
  · simp only [List.mem_cons, List.mem_singleton, List.not_mem_nil, or_false] at hp
    rcases hp with rfl | rfl | rfl <;> simp
  · split at hp <;>
    · simp only [List.mem_cons, List.mem_singleton, List.not_mem_nil, or_false] at hp
      rcases hp with rfl | rfl | rfl <;> simp

theorem mem_addExtension (ne : Bool) (fd : FieldD) (acc : List QVariant) :
    ∀ v ∈ addExtension ne fd acc, v ∈ acc ∨ extShape v := by
  intro v hv
  simp only [addExtension] at hv
  split at hv
  · exact Or.inl hv
  · rcases List.mem_append.mp hv with hv | hv
    · exact Or.inl hv
    · rcases List.mem_singleton.mp hv with rfl
      refine Or.inr ⟨?_, ?_⟩ <;>
      · refine hashGet_eq_null_of_not_mem _ _ ?_
        intro p hp
        rcases List.mem_append.mp hp with hp | hp
        · rcases List.mem_append.mp hp with hp | hp
          · simp only [List.mem_cons, List.mem_singleton, List.not_mem_nil, or_false] at hp
            rcases hp with rfl | rfl | rfl | rfl | rfl | rfl | rfl <;> simp
          · rcases extensionScopeInfo_keys fd p hp with h | h | h | h | h | h <;>
              rw [h] <;> simp
        · rcases extensionTypeInfo_keys fd p hp with h | h | h <;> rw [h] <;> simp

theorem mem_addExtensionList (ne : Bool) :
    ∀ (fs : List FieldD) (acc : List QVariant) (v : QVariant),
      v ∈ addExtensionList ne fs acc → v ∈ acc ∨ extShape v
  | [], acc, v, hv => Or.inl hv
  | f :: rest, acc, v, hv => by
    rcases mem_addExtensionList ne rest (addExtension ne f acc) v hv with hv | hv
    · exact mem_addExtension ne f acc v hv
    · exact Or.inr hv

mutual
theorem mem_addMessages_fst (ne : Bool) (d : MsgD) (acc : List QVariant × List QVariant) :
    ∀ v ∈ (addMessages ne d acc).1, v ∈ acc.1 ∨ msgShape v := by
  intro v hv
  match d with
  | .mk ref fullName leading trailing fields extensions enums nested =>
    rw [addMessages] at hv
    split at hv
    · exact Or.inl hv
    · simp only at hv
      rcases mem_addMessagesList_fst ne nested _ v hv with hv | hv
      · rcases List.mem_append.mp hv with hv | hv
        · exact Or.inl hv
        · rcases List.mem_singleton.mp hv with rfl
          exact Or.inr ⟨rfl, rfl⟩
      · exact Or.inr hv
theorem mem_addMessagesList_fst (ne : Bool) (l : MsgList) (acc : List QVariant × List QVariant) :
    ∀ v ∈ (addMessagesList ne l acc).1, v ∈ acc.1 ∨ msgShape v := by
  intro v hv
  match l with
  | .nil => exact Or.inl hv
  | .cons d tl =>
    rw [addMessagesList] at hv
    rcases mem_addMessagesList_fst ne tl (addMessages ne d acc) v hv with hv | hv
    · exact mem_addMessages_fst ne d acc v hv
    · exact Or.inr hv
end

mutual
theorem mem_addMessages_snd (ne : Bool) (d : MsgD) (acc : List QVariant × List QVariant) :
    ∀ v ∈ (addMessages ne d acc).2, v ∈ acc.2 ∨ enumShape v := by
  intro v hv
  match d with
  | .mk ref fullName leading trailing fields extensions enums nested =>
    rw [addMessages] at hv
    split at hv
    · exact Or.inl hv
    · simp only at hv
      rcases mem_addEnumList ne enums _ v hv with hv | hv
      · rcases mem_addMessagesList_snd ne nested _ v hv with hv2 | hv2
        · exact Or.inl hv2
        · exact Or.inr hv2
      · exact Or.inr hv
theorem mem_addMessagesList_snd (ne : Bool) (l : MsgList) (acc : List QVariant × List QVariant) :
    ∀ v ∈ (addMessagesList ne l acc).2, v ∈ acc.2 ∨ enumShape v := by
  intro v hv
  match l with
  | .nil => exact Or.inl hv
  | .cons d tl =>
    rw [addMessagesList] at hv
    rcases mem_addMessagesList_snd ne tl (addMessages ne d acc) v hv with hv | hv
    · exact mem_addMessages_snd ne d acc v hv
    · exact Or.inr hv
end

theorem longNameLessThan_msg (a b : QVariant) (ha : msgShape a) (hb : msgShape b) :
    longNameLessThan a b =
      qless (keyStr a .message_long_name) (keyStr b .message_long_name) := by
  obtain ⟨ha1, ha2⟩ := ha
  obtain ⟨hb1, hb2⟩ := hb
  unfold longNameLessThan keyStr
  rw [ha1, ha2, hb1, hb2]
  cases h : qless ((hashGet a.toHash .message_long_name).toQStr)
      ((hashGet b.toHash .message_long_name).toQStr) <;>
    simp [h, QVariant.toQStr, qless]

theorem longNameLessThan_enum (a b : QVariant) (ha : enumShape a) (hb : enumShape b) :
    longNameLessThan a b = qless (keyStr a .enum_long_name) (keyStr b .enum_long_name) := by
  obtain ⟨ha1, ha2⟩ := ha
  obtain ⟨hb1, hb2⟩ := hb
  unfold longNameLessThan keyStr
  rw [ha1, ha2, hb1, hb2]
  cases h : qless ((hashGet a.toHash .enum_long_name).toQStr)
      ((hashGet b.toHash .enum_long_name).toQStr) <;>
    simp [h, QVariant.toQStr, qless]

theorem longNameLessThan_ext (a b : QVariant) (ha : extShape a) (hb : extShape b) :
    longNameLessThan a b =
      qless (keyStr a .extension_long_name) (keyStr b .extension_long_name) := by
  obtain ⟨ha1, ha2⟩ := ha
  obtain ⟨hb1, hb2⟩ := hb
  unfold longNameLessThan keyStr
  rw [ha1, ha2, hb1, hb2]
  simp [QVariant.toQStr, qless]

/-- C1 (amended): for every file record produced by addFile, the
messages, enums and extensions sibling lists are sorted ascending by
their qualified long names. The services list, although passed through
the same comparator, is not: service records carry none of the three
long-name keys the comparator reads, so all services compare equal and
keep their declaration order. -/
theorem addFile_message_enum_extension_lists_sorted (env : Env) (ne : Bool) (f : FileD) :
    ∀ v ∈ (addFile env ne f [] []).1,
      sortedByKey (fun x => keyStr x .message_long_name) (fileMessagesOf v) ∧
      sortedByKey (fun x => keyStr x .enum_long_name) (fileEnumsOf v) ∧
      sortedByKey (fun x => keyStr x .extension_long_name) (fileExtensionsOf v) := by
  intro v hv
  simp only [addFile] at hv
  split at hv
  · simp at hv
  · rcases List.mem_append.mp hv with hv | hv
    · simp at hv
    · rcases List.mem_singleton.mp hv with rfl
      refine ⟨?_, ?_, ?_⟩
      · show sortedByKey _
          (sortCmp longNameLessThan (addMessagesList ne f.messageTypes ([], [])).1)
        refine sortCmp_sortedByKey longNameLessThan _ msgShape longNameLessThan_msg _ ?_
        intro z hz
        rcases mem_addMessagesList_fst ne f.messageTypes ([], []) z hz with hz | hz
        · simp at hz
        · exact hz
      · show sortedByKey _
          (sortCmp longNameLessThan
            (addEnumList ne f.enumTypes (addMessagesList ne f.messageTypes ([], [])).2))
        refine sortCmp_sortedByKey longNameLessThan _ enumShape longNameLessThan_enum _ ?_
        intro z hz
        rcases mem_addEnumList ne f.enumTypes _ z hz with hz | hz
        · rcases mem_addMessagesList_snd ne f.messageTypes ([], []) z hz with hz | hz
          · simp at hz
          · exact hz
        · exact hz
      · show sortedByKey _
          (sortCmp longNameLessThan (addExtensionList ne f.extensions []))
        refine sortCmp_sortedByKey longNameLessThan _ extShape longNameLessThan_ext _ ?_
        intro z hz
        rcases mem_addExtensionList ne f.extensions [] z hz with hz | hz
        · simp at hz
        · exact hz

/-- Trivial environment for concrete runs: every schema file exists and
is empty, no template resources. -/
def envTriv : Env where
  protoFiles := fun _ => some []
  ioErrText := fun _ => qs "file error"
  supportedFormats := []
  templates := fun _ => none
  tplErrText := fun _ => qs "resource error"
  scalarTypesJson := none
  mustacheErr := fun _ _ => []

/-- Concrete input: a file declaring two services in descending name
order. -/
def fileSvcBA : FileD where
  id := 0
  name := qs "t.proto"
  package := []
  messageTypes := .nil
  enumTypes := []
  services := [⟨qs "b", qs "b", [], [], []⟩, ⟨qs "a", qs "a", [], [], []⟩]
  extensions := []

/-- C1 counterexample: the claim as stated also requires the services
list to be sorted ascending by qualified name. A service is a top-level
element, so its qualified long name is its (full) name; for a file
declaring services "b" then "a", the produced record keeps them in
declaration order ("b" before "a"), because longNameLessThan reads only
the message, enum and extension long-name keys, none of which a service
record carries. -/
theorem addFile_services_not_sorted :
    ¬ sortedByKey (fun x => keyStr x .service_full_name)
        (fileServicesOf (((addFile envTriv false fileSvcBA [] []).1).getD 0 .nullV)) := by
  unfold sortedByKey
  decide

/-- Concrete input: a file declaring two messages, two enums and two
extensions, each pair in descending name order. -/
def fileOutOfOrder : FileD where
  id := 1
  name := qs "m.proto"
  package := []
  messageTypes := .cons (.mk (.mk (qs "z") (qs "z") none) (qs "z") [] [] [] [] [] .nil)
    (.cons (.mk (.mk (qs "a") (qs "a") none) (qs "a") [] [] [] [] [] .nil) .nil)
  enumTypes := [⟨.mk (qs "y") (qs "y") none, qs "y", [], [], []⟩,
                ⟨.mk (qs "b") (qs "b") none, qs "b", [], [], []⟩]
  services := []
  extensions :=
    [{ name := qs "x", fullName := qs "x", number := 1, label := .lOptional,
       ftype := .tint32, cppType := .cppInt32, isExtension := true,
       extensionScope := none, containingType := some (.mk (qs "T") (qs "T") none),
       messageType := .mk [] [] none, enumTypeRef := .mk [] [] none,
       hasDefault := false, defaultString := [], defaultBool := false,
       defaultInt32 := 0, defaultInt64 := 0, defaultUInt32 := 0, defaultUInt64 := 0,
       defaultFloatRepr := [], defaultDoubleRepr := [], defaultEnumName := [],
       leading := [], trailing := [] },
     { name := qs "c", fullName := qs "c", number := 2, label := .lOptional,
       ftype := .tint32, cppType := .cppInt32, isExtension := true,
       extensionScope := none, containingType := some (.mk (qs "T") (qs "T") none),
       messageType := .mk [] [] none, enumTypeRef := .mk [] [] none,
       hasDefault := false, defaultString := [], defaultBool := false,
       defaultInt32 := 0, defaultInt64 := 0, defaultUInt32 := 0, defaultUInt64 := 0,
       defaultFloatRepr := [], defaultDoubleRepr := [], defaultEnumName := [],
       leading := [], trailing := [] }]

/-- C1 witness: the amended sortedness theorem applied to a concrete file
whose messages, enums and extensions are declared out of order. -/
theorem addFile_sorted_witness :
    sortedByKey (fun x => keyStr x .message_long_name)
      (fileMessagesOf (((addFile envTriv false fileOutOfOrder [] []).1).getD 0 .nullV)) ∧
    sortedByKey (fun x => keyStr x .enum_long_name)
      (fileEnumsOf (((addFile envTriv false fileOutOfOrder [] []).1).getD 0 .nullV)) ∧
    sortedByKey (fun x => keyStr x .extension_long_name)
      (fileExtensionsOf (((addFile envTriv false fileOutOfOrder [] []).1).getD 0 .nullV)) := by
  have hmem : (((addFile envTriv false fileOutOfOrder [] []).1).getD 0 .nullV) ∈
      (addFile envTriv false fileOutOfOrder [] []).1 := by
    have h : (addFile envTriv false fileOutOfOrder [] []).1 =
        [((addFile envTriv false fileOutOfOrder [] []).1).getD 0 .nullV] := rfl
    rw [h]
    exact List.mem_singleton.mpr rfl
  exact addFile_message_enum_extension_lists_sorted envTriv false fileOutOfOrder _ hmem

/-- C4: longName is recursive with longName(null) = "", the bare name for
a top-level element, and longName(enclosing) ++ "." ++ name otherwise;
for a field the recursion follows the extension scope when the field is
an extension and the containing type otherwise, so a field declared
inside type A extending type B is qualified under A, not under B. -/
theorem longName_recursion :
    longName none = [] ∧
    (∀ n f : QStr, longName (some (.mk n f none)) = n) ∧
    (∀ (n f : QStr) (p : TypeRef),
      longName (some (.mk n f (some p))) = longName (some p) ++ qs "." ++ n) ∧
    (∀ fd : FieldD, fd.isExtension = true →
      longNameField fd = longName fd.extensionScope ++ qs "." ++ fd.name) ∧
    (∀ fd : FieldD, fd.isExtension = false →
      longNameField fd = longName fd.containingType ++ qs "." ++ fd.name) ∧
    (∀ (fd : FieldD) (a b : TypeRef), fd.isExtension = true →
      fd.extensionScope = some a → fd.containingType = some b →
      longNameField fd = longName (some a) ++ qs "." ++ fd.name ∧
      (longName (some a) ≠ longName (some b) →
        longNameField fd ≠ longName (some b) ++ qs "." ++ fd.name)) := by
  refine ⟨by simp [longName], fun n f => by simp [longName], fun n f p => by simp [longName],
    ?_, ?_, ?_⟩
  · intro fd h
    simp [longNameField, h]
  · intro fd h
    simp [longNameField, h]
  · intro fd a b hext hscope hcont
    have heq : longNameField fd = longName (some a) ++ qs "." ++ fd.name := by
      simp [longNameField, hext, hscope]
    refine ⟨heq, fun hne hbad => hne ?_⟩
    rw [heq] at hbad
    exact List.append_cancel_right (List.append_cancel_right hbad)

/-- Concrete naming scenario: a field named "ext" declared inside
top-level type A, extending top-level type B. -/
def fdInAExtB : FieldD where
  name := qs "ext"
  fullName := qs "A.ext"
  number := 100
  label := .lOptional
  ftype := .tint32
  cppType := .cppInt32
  isExtension := true
  extensionScope := some (.mk (qs "A") (qs "A") none)
  containingType := some (.mk (qs "B") (qs "B") none)
  messageType := .mk [] [] none
  enumTypeRef := .mk [] [] none
  hasDefault := false
  defaultString := []
  defaultBool := false
  defaultInt32 := 0
  defaultInt64 := 0
  defaultUInt32 := 0
  defaultUInt64 := 0
  defaultFloatRepr := []
  defaultDoubleRepr := []
  defaultEnumName := []
  leading := []
  trailing := []

/-- C4 witness: the recursion theorem applied at the concrete A / B
scenario, giving the long name "A.ext" and ruling out "B.ext". -/
theorem longName_recursion_witness :
    longNameField fdInAExtB = longName (some (.mk (qs "A") (qs "A") none)) ++ qs "." ++
      fdInAExtB.name ∧
    longNameField fdInAExtB ≠ longName (some (.mk (qs "B") (qs "B") none)) ++ qs "." ++
      fdInAExtB.name := by
  have h := (longName_recursion.2.2.2.2.2 fdInAExtB (.mk (qs "A") (qs "A") none)
    (.mk (qs "B") (qs "B") none) rfl rfl rfl)
  exact ⟨h.1, h.2 (by simp [longName]; decide)⟩

/-- Field template with no default value, used as a base for concrete
field inputs. -/
def fdBase : FieldD where
  name := qs "f"
  fullName := qs "f"
  number := 1
  label := .lOptional
  ftype := .tint32
  cppType := .cppInt32
  isExtension := false
  extensionScope := none
  containingType := some (.mk (qs "M") (qs "M") none)
  messageType := .mk [] [] none
  enumTypeRef := .mk [] [] none
  hasDefault := false
  defaultString := []
  defaultBool := false
  defaultInt32 := 0
  defaultInt64 := 0
  defaultUInt32 := 0
  defaultUInt64 := 0
  defaultFloatRepr := []
  defaultDoubleRepr := []
  defaultEnumName := []
  leading := []
  trailing := []

/-- Rendering of a byte-string default as the claim words it: the whole
default payload hex-encoded behind a 0x prefix. This follows the spec's
words, for comparison with the code's defaultValue. -/
def claimedBytesHex (fd : FieldD) : QStr := qs "0x" ++ toHexQ fd.defaultString

/-- Concrete byte-typed field whose default value contains a NUL byte
followed by the byte 0x41. -/
def fdBytesNul : FieldD :=
  { fdBase with cppType := .cppString, ftype := .tbytes, hasDefault := true,
                defaultString := [Char.ofNat 0, 'A'] }

/-- C6 counterexample: for a byte-string default containing a NUL byte,
the code renders only the bytes before the NUL (QByteArray built from
c_str() stops at the first NUL), so the output "0x" differs from the
hex encoding "0x0041" of the default. -/
theorem defaultValue_bytes_not_full_hex :
    defaultValue fdBytesNul ≠ claimedBytesHex fdBytesNul ∧
    defaultValue fdBytesNul = qs "0x" := by
  constructor
  · decide
  · decide

/-- C6 (amended): default-value formatting is type-directed: a string
default renders wrapped in double quotes; a byte-string default renders
hex-encoded with a 0x prefix, covering the bytes up to the first NUL (the
c_str() truncation); any other representation under the string cpp-type
renders "Unknown"; booleans render true/false; integral defaults render
in decimal; float and double defaults render their numeric text; an enum
default renders the constant's name; an unhandled cpp-type renders
"Unknown" rather than failing; and a field with no default renders the
empty string. -/
theorem defaultValue_type_directed (fd : FieldD) :
    (fd.hasDefault = false → defaultValue fd = []) ∧
    (fd.hasDefault = true → fd.cppType = .cppString → fd.ftype = .tstring →
      defaultValue fd = qs "\"" ++ fd.defaultString ++ qs "\"") ∧
    (fd.hasDefault = true → fd.cppType = .cppString → fd.ftype = .tbytes →
      defaultValue fd = qs "0x" ++ toHexQ (cStrBytes fd.defaultString)) ∧
    (fd.hasDefault = true → fd.cppType = .cppString → fd.ftype ≠ .tstring →
      fd.ftype ≠ .tbytes → defaultValue fd = qs "Unknown") ∧
    (fd.hasDefault = true → fd.cppType = .cppBool →
      defaultValue fd = if fd.defaultBool then qs "true" else qs "false") ∧
    (fd.hasDefault = true → fd.cppType = .cppInt32 →
      defaultValue fd = qNumber fd.defaultInt32) ∧
    (fd.hasDefault = true → fd.cppType = .cppInt64 →
      defaultValue fd = qNumber fd.defaultInt64) ∧
    (fd.hasDefault = true → fd.cppType = .cppUInt32 →
      defaultValue fd = qNumberNat fd.defaultUInt32) ∧
    (fd.hasDefault = true → fd.cppType = .cppUInt64 →
      defaultValue fd = qNumberNat fd.defaultUInt64) ∧
    (fd.hasDefault = true → fd.cppType = .cppFloat →
      defaultValue fd = fd.defaultFloatRepr) ∧
    (fd.hasDefault = true → fd.cppType = .cppDouble →
      defaultValue fd = fd.defaultDoubleRepr) ∧
    (fd.hasDefault = true → fd.cppType = .cppEnum →
      defaultValue fd = fd.defaultEnumName) ∧
    (fd.hasDefault = true → fd.cppType = .cppMessage →
      defaultValue fd = qs "Unknown") := by
  refine ⟨?_, ?_, ?_, ?_, ?_, ?_, ?_, ?_, ?_, ?_, ?_, ?_, ?_⟩ <;>
    intros <;> simp_all [defaultValue]

/-- Concrete string-typed field with default "hi". -/
def fdStrDef : FieldD :=
  { fdBase with cppType := .cppString, ftype := .tstring, hasDefault := true,
                defaultString := qs "hi" }

/-- Concrete enum-typed field defaulting to the constant RED. -/
def fdEnumDef : FieldD :=
  { fdBase with cppType := .cppEnum, ftype := .tenum, hasDefault := true,
                defaultEnumName := qs "RED" }

/-- Concrete field with an unhandled default representation (message
cpp-type). -/
def fdMsgDef : FieldD :=
  { fdBase with cppType := .cppMessage, ftype := .tmessage, hasDefault := true }

/-- C6 witness: the type-directed formatting theorem applied at concrete
fields covering the quoted-string, truncated-hex, enum-name, Unknown and
no-default clauses. -/
theorem defaultValue_type_directed_witness :
    defaultValue fdStrDef = qs "\"" ++ fdStrDef.defaultString ++ qs "\"" ∧
    defaultValue fdBytesNul = qs "0x" ++ toHexQ (cStrBytes fdBytesNul.defaultString) ∧
    defaultValue fdEnumDef = fdEnumDef.defaultEnumName ∧
    defaultValue fdMsgDef = qs "Unknown" ∧
    defaultValue fdBase = [] :=
  ⟨(defaultValue_type_directed fdStrDef).2.1 rfl rfl rfl,
   (defaultValue_type_directed fdBytesNul).2.2.1 rfl rfl rfl,
   (defaultValue_type_directed fdEnumDef).2.2.2.2.2.2.2.2.2.2.2.1 rfl rfl,
   (defaultValue_type_directed fdMsgDef).2.2.2.2.2.2.2.2.2.2.2.2 rfl rfl,
   (defaultValue_type_directed fdBase).1 rfl⟩

/-- C5: configuration-string parsing: two tokens set the template
selector and output file with the override flag unset; a third token
equal to "no-exclude" additionally sets the flag; any other token count,
or a different third token, is a fatal configuration error (the parse
fails with the usage message and the context is untouched), and a run
whose parameter fails to parse aborts on the first invocation with no
render step ever invoked. -/
theorem parseParameter_spec :
    (∀ (env : Env) (p t o : QStr) (ctx : GenCtx), qSplitChar ',' p = [t, o] →
      (parseParameter env p ctx).2.1 = true ∧
      (parseParameter env p ctx).1.outputFileName = o ∧
      (parseParameter env p ctx).1.noExclude = false) ∧
    (∀ (env : Env) (p t o : QStr) (ctx : GenCtx),
      qSplitChar ',' p = [t, o, qs "no-exclude"] →
      (parseParameter env p ctx).2.1 = true ∧
      (parseParameter env p ctx).1.outputFileName = o ∧
      (parseParameter env p ctx).1.noExclude = true) ∧
    (∀ (env : Env) (p : QStr) (ctx : GenCtx), (qSplitChar ',' p).length ≠ 2 →
      (qSplitChar ',' p).length ≠ 3 →
      parseParameter env p ctx = (ctx, false, usage env)) ∧
    (∀ (env : Env) (p t o x : QStr) (ctx : GenCtx), qSplitChar ',' p = [t, o, x] →
      x ≠ qs "no-exclude" → parseParameter env p ctx = (ctx, false, usage env)) ∧
    (∀ (env : Env) (p : QStr) (fd : FileD) (rest : List FileD),
      (parseParameter env p initialContext).2.1 = false →
      runAll env p (fd :: rest) =
        ⟨initialContext, false, [], (parseParameter env p initialContext).2.2⟩) := by
  refine ⟨?_, ?_, ?_, ?_, ?_⟩
  · intro env p t o ctx h
    simp [parseParameter, h]
  · intro env p t o ctx h
    simp [parseParameter, h]
  · intro env p ctx h1 h2
    simp only [parseParameter]
    rw [if_pos fun hor => hor.elim h1 h2]
  · intro env p t o x ctx h hx
    simp [parseParameter, h, hx]
  · intro env p fd rest hfail
    have hg : Generate env (fd :: rest) fd p initialContext =
        ⟨initialContext, false, false, (parseParameter env p initialContext).2.2⟩ := by
      simp [Generate, hfail]
    simp [runAll, runFrom, hg]

/-- C5 witness: the parsing theorem applied at the concrete parameters
"html,index.html", "html,index.html,no-exclude", the single token "html",
a wrong third token, and a run aborted by the single-token parameter. -/
theorem parseParameter_spec_witness :
    ((parseParameter envTriv (qs "html,index.html") initialContext).2.1 = true ∧
     (parseParameter envTriv (qs "html,index.html") initialContext).1.outputFileName =
       qs "index.html" ∧
     (parseParameter envTriv (qs "html,index.html") initialContext).1.noExclude = false) ∧
    ((parseParameter envTriv (qs "html,index.html,no-exclude") initialContext).2.1 = true ∧
     (parseParameter envTriv (qs "html,index.html,no-exclude")
        initialContext).1.outputFileName = qs "index.html" ∧
     (parseParameter envTriv (qs "html,index.html,no-exclude")
        initialContext).1.noExclude = true) ∧
    parseParameter envTriv (qs "html") initialContext =
      (initialContext, false, usage envTriv) ∧
    parseParameter envTriv (qs "html,index.html,keep") initialContext =
      (initialContext, false, usage envTriv) ∧
    runAll envTriv (qs "html") [fileSvcBA] =
      ⟨initialContext, false, [],
       (parseParameter envTriv (qs "html") initialContext).2.2⟩ :=
  ⟨parseParameter_spec.1 envTriv _ (qs "html") (qs "index.html") initialContext (by decide),
   parseParameter_spec.2.1 envTriv _ (qs "html") (qs "index.html") initialContext (by decide),
   parseParameter_spec.2.2.1 envTriv (qs "html") initialContext (by decide) (by decide),
   parseParameter_spec.2.2.2.1 envTriv _ (qs "html") (qs "index.html") (qs "keep")
     initialContext (by decide) (by decide),
   parseParameter_spec.2.2.2.2 envTriv (qs "html") fileSvcBA [] (by decide)⟩

/-- C10: the "json" template selector skips template reading entirely,
leaving the template string at its prior (initially empty) value, and at
render time an empty template string selects direct JSON serialization
of the accumulated file list instead of the template engine. -/
theorem json_selector_raw_json_output :
    (∀ (env : Env) (p out : QStr) (ctx : GenCtx), qSplitChar ',' p = [qs "json", out] →
      (parseParameter env p ctx).1.template_ = ctx.template_ ∧
      (parseParameter env p ctx).2.1 = true ∧ (parseParameter env p ctx).2.2 = []) ∧
    (∀ (env : Env) (ctx : GenCtx), ctx.template_ = [] →
      render env ctx = (some (.jsonOut ctx.files), [])) := by
  constructor
  · intro env p out ctx h
    simp [parseParameter, h]
  · intro env ctx h
    simp [render, h]

/-- C10 witness: the theorem applied at the parameter "json,out.json" and
at the initial context, whose template string is empty. -/
theorem json_selector_raw_json_output_witness :
    (parseParameter envTriv (qs "json,out.json") initialContext).1.template_ =
      initialContext.template_ ∧
    (parseParameter envTriv (qs "json,out.json") initialContext).2.1 = true ∧
    render envTriv initialContext = (some (.jsonOut initialContext.files), []) :=
  ⟨(json_selector_raw_json_output.1 envTriv _ (qs "out.json") initialContext (by decide)).1,
   (json_selector_raw_json_output.1 envTriv _ (qs "out.json") initialContext (by decide)).2.1,
   json_selector_raw_json_output.2 envTriv initialContext rfl⟩

def MsgD.leading : MsgD → QStr
  | .mk _ _ l _ _ _ _ _ => l

def MsgD.trailing : MsgD → QStr
  | .mk _ _ _ t _ _ _ _ => t

/-- C3: with the ignore-exclusions flag unset, every element whose
trimmed description begins with the @exclude marker is absent from the
produced model: an excluded field, extension, enum or service leaves its
list unchanged; an excluded message contributes nothing to the message
and enum lists (its whole subtree is skipped); an excluded file
contributes no file record. -/
theorem exclusion_marker_removes_element :
    (∀ (fd : FieldD) (fields : List QVariant),
      qStartsWith (qTrim (combinedComments fd.leading fd.trailing)) (qs "@exclude") = true →
      addField false fd fields = fields) ∧
    (∀ (fd : FieldD) (exts : List QVariant),
      qStartsWith (qTrim (combinedComments fd.leading fd.trailing)) (qs "@exclude") = true →
      addExtension false fd exts = exts) ∧
    (∀ (e : EnumD) (enums : List QVariant),
      qStartsWith (qTrim (combinedComments e.leading e.trailing)) (qs "@exclude") = true →
      addEnum false e enums = enums) ∧
    (∀ (s : ServiceD) (svcs : List QVariant),
      qStartsWith (qTrim (combinedComments s.leading s.trailing)) (qs "@exclude") = true →
      addService false s svcs = svcs) ∧
    (∀ (d : MsgD) (acc : List QVariant × List QVariant),
      qStartsWith (qTrim (combinedComments d.leading d.trailing)) (qs "@exclude") = true →
      addMessages false d acc = acc) ∧
    (∀ (env : Env) (f : FileD) (files : List QVariant) (err : QStr) (lines : List QStr),
      env.protoFiles f.name = some lines →
      qStartsWith (qTrim (fileScan lines)) (qs "@exclude") = true →
      addFile env false f files err = (files, err)) := by
  have hdesc : ∀ leading trailing : QStr,
      qStartsWith (qTrim (combinedComments leading trailing)) (qs "@exclude") = true →
      (descriptionOf false leading trailing).2 = true := by
    intro leading trailing h
    simp [descriptionOf, h]
  refine ⟨?_, ?_, ?_, ?_, ?_, ?_⟩
  · intro fd fields h
    simp [addField, hdesc _ _ h]
  · intro fd exts h
    simp [addExtension, hdesc _ _ h]
  · intro e enums h
    simp [addEnum, hdesc _ _ h]
  · intro s svcs h
    simp [addService, hdesc _ _ h]
  · intro d acc h
    match d with
    | .mk ref fullName leading trailing fields extensions enums nested =>
      rw [addMessages]
      simp [hdesc _ _ (by simpa [MsgD.leading, MsgD.trailing] using h)]
  · intro env f files err lines hlines h
    have hfile : descriptionOfFile env false f =
        ((qTrim (fileScan lines)).drop 8, true, []) := by
      simp [descriptionOfFile, hlines, h]
    simp [addFile, hfile]

/-- Concrete excluded element comments: a leading documentation comment
whose content is the @exclude marker. -/
def exLeading : QStr := qs "/ @exclude secret"

/-- Concrete excluded field. -/
def fdExcluded : FieldD := { fdBase with leading := exLeading }

/-- Concrete excluded enum. -/
def enumExcluded : EnumD := ⟨.mk (qs "E") (qs "E") none, qs "E", exLeading, [], []⟩

/-- Concrete excluded service. -/
def svcExcluded : ServiceD := ⟨qs "S", qs "S", exLeading, [], []⟩

/-- Concrete excluded message with a nested subtree (a field, a nested
message and a nested enum). -/
def msgExcluded : MsgD :=
  .mk (.mk (qs "M") (qs "M") none) (qs "M") exLeading [] [fdBase] []
    [⟨.mk (qs "NE") (qs "NE") none, qs "NE", [], [], []⟩]
    (.cons (.mk (.mk (qs "M.N") (qs "M.N") none) (qs "M.N") [] [] [] [] [] .nil) .nil)

/-- Environment whose only schema file starts with an @exclude comment. -/
def envExcludedFile : Env :=
  { envTriv with protoFiles := fun _ => some [qs "/// @exclude whole file", qs ""] }

/-- Concrete file descriptor for the excluded file. -/
def fileExcluded : FileD where
  id := 7
  name := qs "ex.proto"
  package := []
  messageTypes := .nil
  enumTypes := []
  services := []
  extensions := []

/-- C3 witness: the exclusion theorem applied at a concrete excluded
field, extension, enum, service, message and file, each leaving the
accumulated model unchanged. -/
theorem exclusion_marker_removes_element_witness :
    addField false fdExcluded [] = [] ∧
    addExtension false fdExcluded [] = [] ∧
    addEnum false enumExcluded [] = [] ∧
    addService false svcExcluded [] = [] ∧
    addMessages false msgExcluded ([], []) = ([], []) ∧
    addFile envExcludedFile false fileExcluded [] [] = ([], []) :=
  ⟨exclusion_marker_removes_element.1 fdExcluded [] (by decide),
   exclusion_marker_removes_element.2.1 fdExcluded [] (by decide),
   exclusion_marker_removes_element.2.2.1 enumExcluded [] (by decide),
   exclusion_marker_removes_element.2.2.2.1 svcExcluded [] (by decide),
   exclusion_marker_removes_element.2.2.2.2.1 msgExcluded ([], []) (by decide),
   exclusion_marker_removes_element.2.2.2.2.2 envExcludedFile fileExcluded [] []
     [qs "/// @exclude whole file", qs ""] rfl (by decide)⟩

theorem slash3_starts (a : QStr) : qStartsWith (qs "/// " ++ a) (qs "///") = true := rfl

theorem slash4_starts (a : QStr) : qStartsWith (qs "/// " ++ a) (qs "/// ") = true := by
  show List.isPrefixOf (qs "/// ") (qs "/// " ++ a) = true
  simp [List.isPrefixOf]

theorem slash_drop4 (a : QStr) : (qs "/// " ++ a).drop 4 = a := rfl

theorem nil_slash3 : qStartsWith [] (qs "///") = false := rfl

theorem slash_ne_nil (a : QStr) : ¬ (qs "/// " ++ a = []) := fun h =>
  List.cons_ne_nil '/' ('/' :: '/' :: ' ' :: a) h

/-- Contents accumulated by the /// loop: each entry followed by a
newline. -/
def joinLnTerm : List QStr → QStr
  | [] => []
  | x :: xs => x ++ qs "\n" ++ joinLnTerm xs

theorem joinLnTerm_eq_qJoin (x : QStr) :
    ∀ xs : List QStr, joinLnTerm (x :: xs) = qJoin (qs "\n") (x :: xs) ++ qs "\n"
  | [] => by simp [joinLnTerm, qJoin]
  | y :: ys => by
    have ih := joinLnTerm_eq_qJoin y ys
    simp only [joinLnTerm] at ih ⊢
    rw [ih]
    simp [qJoin, List.append_assoc]

theorem qLeft_drop_newline (X : QStr) :
    qLeft (X ++ qs "\n") (((X ++ qs "\n").length : Int) - 1) = X := by
  have hlen : (X ++ qs "\n").length = X.length + 1 := by simp [qs]
  unfold qLeft
  rw [if_neg]
  · have htn : (((X ++ qs "\n").length : Int) - 1).toNat = X.length := by
      rw [hlen]; omega
    rw [htn]
    exact List.take_left X (qs "\n")
  · rw [hlen]
    push_cast
    omega

/-- Behaviour of the /// accumulation loop on a run of /// lines reaching
the end of the stream: every line's content but the last is accumulated,
each followed by a newline; the line read last is never appended because
the loop guard checks for the end of the stream first. -/
theorem slashAcc_all (lines contents : List QStr)
    (h : List.Forall₂ (fun u v => qTrim u = qs "/// " ++ v) lines contents) :
    ∀ (acc a : QStr),
      slashAcc (qs "/// " ++ a) lines acc = acc ++ joinLnTerm ((a :: contents).dropLast) := by
  induction h with
  | nil => intro acc a; simp [slashAcc, joinLnTerm]
  | @cons l c ls cs hlc htail ih =>
    intro acc a
    rw [slashAcc]
    simp only [slash3_starts, slash4_starts, slash_drop4, if_true]
    rw [hlc, ih (acc ++ a ++ qs "\n") c]
    simp [joinLnTerm, List.append_assoc, List.dropLast]

/-- C9: in the whole-file comment scanner, a run of /// documentation
comments that extends to the end of the input has its last line dropped:
the accumulation loop requires the stream not to be at its end before
appending, so a file consisting solely of /// comment lines yields the
contents of all lines but the final one, joined with newlines. -/
theorem fileScan_slash_run_drops_last (l c : QStr) (ls cs : List QStr)
    (h1 : qTrim l = qs "/// " ++ c)
    (h2 : List.Forall₂ (fun u v => qTrim u = qs "/// " ++ v) ls cs) :
    fileScan (l :: ls) = qJoin (qs "\n") ((c :: cs).dropLast) := by
  rw [fileScan, h1]
  rw [if_neg (slash_ne_nil c)]
  simp only [slash3_starts, if_true]
  rw [slashAcc_all ls cs h2 [] c]
  rw [List.nil_append]
  rcases hdl : (c :: cs).dropLast with _ | ⟨x, xs⟩
  · simp [joinLnTerm, qLeft, qJoin]
  · rw [joinLnTerm_eq_qJoin, qLeft_drop_newline]

/-- C9 witness: the theorem applied to a concrete file of exactly three
/// lines, whose description is "a\nb": the final line "c" is missing. -/
theorem fileScan_slash_run_drops_last_witness :
    fileScan [qs "/// a", qs "/// b", qs "/// c"] =
      qJoin (qs "\n") ((qs "a" :: [qs "b", qs "c"]).dropLast) :=
  fileScan_slash_run_drops_last (qs "/// a") (qs "a") [qs "/// b", qs "/// c"]
    [qs "b", qs "c"] (by decide)
    (List.Forall₂.cons (by decide) (List.Forall₂.cons (by decide) List.Forall₂.nil))

theorem slashAcc_nil_line (rest : List QStr) (acc : QStr) : slashAcc [] rest acc = acc := by
  cases rest with
  | nil => simp [slashAcc]
  | cons r rs => simp [slashAcc, nil_slash3]

/-- Scanner behaviour on a file opening with three /// comment lines and
a blank line: the three contents joined by newlines, the trailing newline
removed. -/
theorem fileScan_three_slash (l1 l2 l3 l4 : QStr) (rest : List QStr) (a b c : QStr)
    (h1 : qTrim l1 = qs "/// " ++ a) (h2 : qTrim l2 = qs "/// " ++ b)
    (h3 : qTrim l3 = qs "/// " ++ c) (h4 : qTrim l4 = []) :
    fileScan (l1 :: l2 :: l3 :: l4 :: rest) = a ++ qs "\n" ++ b ++ qs "\n" ++ c := by
  simp only [fileScan, slashAcc, h1, h2, h3, h4, slash3_starts, slash4_starts, slash_drop4,
    slashAcc_nil_line, List.nil_append]
  rw [if_neg (slash_ne_nil a)]
  simp only [if_true, if_pos rfl]
  rw [qLeft_drop_newline]

/-- Scanner behaviour on a file with no leading documentation comment:
every line either trims to blank or starts neither a /// run nor a
multi-line block, so the scan yields the empty description. -/
theorem fileScan_no_doc_comment :
    ∀ lines : List QStr,
      (∀ x ∈ lines, qStartsWith (qTrim x) (qs "///") = false ∧
        qStartsWith (qTrim x) (qs "/**") = false) →
      fileScan lines = []
  | [], _ => rfl
  | l :: rest, h => by
    have hl := h l (List.mem_cons_self _ _)
    have ih := fileScan_no_doc_comment rest fun x hx => h x (List.mem_cons_of_mem _ hx)
    by_cases hb : qTrim l = []
    · simp only [fileScan]
      rw [if_pos hb]
      exact ih
    · simp only [fileScan]
      rw [if_neg hb, if_neg (by simp [hl.1]), if_neg (by simp [hl.2])]

/-- C7: for a file whose first three lines are /// documentation comments
followed by a blank line, the extracted description is the three comment
contents joined with newlines, the trailing newline trimmed; a file with
no leading documentation comment yields an empty description. -/
theorem fileDescription_leading_comments :
    (∀ (env : Env) (nE : Bool) (f : FileD) (l1 l2 l3 l4 : QStr) (rest : List QStr)
      (a b c : QStr),
      env.protoFiles f.name = some (l1 :: l2 :: l3 :: l4 :: rest) →
      qTrim l1 = qs "/// " ++ a → qTrim l2 = qs "/// " ++ b → qTrim l3 = qs "/// " ++ c →
      qTrim l4 = [] →
      qTrim (a ++ qs "\n" ++ b ++ qs "\n" ++ c) = a ++ qs "\n" ++ b ++ qs "\n" ++ c →
      qStartsWith (a ++ qs "\n" ++ b ++ qs "\n" ++ c) (qs "@exclude") = false →
      descriptionOfFile env nE f = (a ++ qs "\n" ++ b ++ qs "\n" ++ c, false, [])) ∧
    (∀ (env : Env) (nE : Bool) (f : FileD) (lines : List QStr),
      env.protoFiles f.name = some lines →
      (∀ x ∈ lines, qStartsWith (qTrim x) (qs "///") = false ∧
        qStartsWith (qTrim x) (qs "/**") = false) →
      descriptionOfFile env nE f = ([], false, [])) := by
  constructor
  · intro env nE f l1 l2 l3 l4 rest a b c henv h1 h2 h3 h4 hstable hnoex
    simp only [descriptionOfFile, henv]
    rw [fileScan_three_slash l1 l2 l3 l4 rest a b c h1 h2 h3 h4, hstable]
    rw [if_neg (by simp only [hnoex]; exact Bool.false_ne_true)]
  · intro env nE f lines henv hno
    simp only [descriptionOfFile, henv]
    rw [fileScan_no_doc_comment lines hno]
    rfl

/-- Schema files on disk for the comment-scanning scenario: one file
opening with three /// comments and a blank line, every other file with
no leading comment. -/
def scanDisk (n : QStr) : Option (List QStr) :=
  if n = qs "doc.proto" then
    some [qs "/// first", qs "/// second", qs "/// third", qs "", qs "message M {}"]
  else some [qs "", qs "option a = 1;", qs "message M {}"]

/-- Environment serving scanDisk. -/
def envScan : Env := { envTriv with protoFiles := scanDisk }

/-- Concrete file descriptor for the commented file. -/
def fileDoc : FileD where
  id := 11
  name := qs "doc.proto"
  package := []
  messageTypes := .nil
  enumTypes := []
  services := []
  extensions := []

/-- Concrete file descriptor for the uncommented file. -/
def filePlain : FileD where
  id := 12
  name := qs "plain.proto"
  package := []
  messageTypes := .nil
  enumTypes := []
  services := []
  extensions := []

/-- C7 witness: the description theorem applied at a concrete commented
file (description "first\nsecond\nthird") and a concrete uncommented
file (empty description). -/
theorem fileDescription_leading_comments_witness :
    descriptionOfFile envScan false fileDoc =
      (qs "first" ++ qs "\n" ++ qs "second" ++ qs "\n" ++ qs "third", false, []) ∧
    descriptionOfFile envScan false filePlain = ([], false, []) :=
  ⟨fileDescription_leading_comments.1 envScan false fileDoc (qs "/// first")
      (qs "/// second") (qs "/// third") (qs "") [qs "message M {}"]
      (qs "first") (qs "second") (qs "third") (by decide) (by decide) (by decide)
      (by decide) (by decide) (by decide) (by decide),
   fileDescription_leading_comments.2 envScan false filePlain
      [qs "", qs "option a = 1;", qs "message M {}"] (by decide) (by decide)⟩

theorem descriptionOfFile_err_of_open (env : Env) (ne : Bool) (f : FileD)
    (hopen : (env.protoFiles f.name).isSome) : (descriptionOfFile env ne f).2.2 = [] := by
  obtain ⟨lines, hl⟩ := Option.isSome_iff_exists.mp hopen
  simp only [descriptionOfFile, hl]
  split <;> rfl

theorem ioMsg_ne_nil (n t : QStr) : n ++ qs ": " ++ t ≠ [] := by
  intro h
  have hlen := congrArg List.length h
  have h2 : (qs ": ").length = 2 := rfl
  simp only [List.length_append, h2, List.length_nil] at hlen
  omega

theorem addFile_split (env : Env) (ne : Bool) (f : FileD) (fs : List QVariant) (e : QStr)
    (hop : (descriptionOfFile env ne f).2.2 = []) :
    addFile env ne f fs e = (fs ++ (addFile env ne f [] []).1, e) := by
  simp only [addFile, hop, if_pos rfl]
  split <;> simp

theorem addFile_err_keeps (env : Env) (ne : Bool) (f : FileD) (fs : List QVariant)
    (e : QStr) (hop : (descriptionOfFile env ne f).2.2 = []) :
    (addFile env ne f fs e).2 = e := by
  simp only [addFile, hop, if_pos rfl]
  split <;> rfl

theorem addFile_err_of_open_fail (env : Env) (ne : Bool) (f : FileD) (fs : List QVariant)
    (e : QStr) (h : env.protoFiles f.name = none) :
    (addFile env ne f fs e).2 = f.name ++ qs ": " ++ env.ioErrText f.name := by
  simp only [addFile, descriptionOfFile, h]
  rw [if_neg (ioMsg_ne_nil f.name (env.ioErrText f.name))]
  rfl

theorem parseParameter_files (env : Env) (p : QStr) (ctx : GenCtx) :
    (parseParameter env p ctx).1.files = ctx.files := by
  simp only [parseParameter]
  split
  · rfl
  · split
    · rfl
    · rfl

/-- Records contributed to the run's accumulated file list by a list of
input files, in order. -/
def recordsOfList (env : Env) (ne : Bool) : List FileD → List QVariant
  | [] => []
  | f :: r => (addFile env ne f [] []).1 ++ recordsOfList env ne r

theorem id_beq_false_of_head (p fd : FileD) (ps rest : List FileD)
    (hnod : ((p :: ps ++ rest).map FileD.id).Nodup) (hmem : fd ∈ rest) :
    (p.id == fd.id) = false := by
  refine beq_eq_false_iff_ne.mpr fun he => ?_
  have hmap : (p.id :: (ps ++ rest).map FileD.id).Nodup := by
    simpa using hnod
  have hfd : fd.id ∈ (ps ++ rest).map FileD.id :=
    List.mem_map_of_mem FileD.id (List.mem_append_right ps hmem)
  exact (List.nodup_cons.mp hmap).1 (he ▸ hfd)

theorem id_beq_false_of_later (fd : FileD) (pre rest' : List FileD) (z : FileD)
    (hnod : ((pre ++ fd :: rest').map FileD.id).Nodup) (hz : z ∈ rest') :
    (z.id == fd.id) = false := by
  refine beq_eq_false_iff_ne.mpr fun he => ?_
  have hmap : ((pre.map FileD.id) ++ fd.id :: rest'.map FileD.id).Nodup := by
    simpa using hnod
  have htail : (fd.id :: rest'.map FileD.id).Nodup := hmap.of_append_right
  have hzid : z.id ∈ rest'.map FileD.id := List.mem_map_of_mem FileD.id hz
  exact (List.nodup_cons.mp htail).1 (he ▸ hzid)

theorem getLast_of_cons_ne_nil (fd : FileD) (rest' : List FileD) (h : rest' ≠ []) :
    ∃ z, (fd :: rest').getLast? = some z ∧ z ∈ rest' := by
  cases rest' with
  | nil => exact absurd rfl h
  | cons r rs =>
    refine ⟨(r :: rs).getLast (List.cons_ne_nil r rs), ?_, List.getLast_mem _⟩
    rw [List.getLast?_cons_cons]
    exact List.getLast?_eq_getLast (r :: rs) (List.cons_ne_nil r rs)

/-- Invocation on a file that is neither the front nor the back of the
parsed list, with its schema file opening fine: the parameter is not
re-parsed, the file's records are appended, no render happens. -/
theorem Generate_mid (env : Env) (param : QStr) (pre rest' : List FileD) (fd : FileD)
    (ctx : GenCtx) (hpre : pre ≠ []) (hrest : rest' ≠ [])
    (hnod : ((pre ++ fd :: rest').map FileD.id).Nodup)
    (hopen : (env.protoFiles fd.name).isSome) :
    Generate env (pre ++ fd :: rest') fd param ctx =
      ⟨{ ctx with files := ctx.files ++ (addFile env ctx.noExclude fd [] []).1 },
       true, false, []⟩ := by
  obtain ⟨p, ps, rfl⟩ := List.exists_cons_of_ne_nil hpre
  have hfirst : (p.id == fd.id) = false :=
    id_beq_false_of_head p fd ps (fd :: rest') hnod (List.mem_cons_self _ _)
  obtain ⟨z, hz, hzmem⟩ := getLast_of_cons_ne_nil fd rest' hrest
  have hlast : (z.id == fd.id) = false :=
    id_beq_false_of_later fd (p :: ps) rest' z hnod hzmem
  have hgl : (p :: (ps ++ fd :: rest')).getLast? = some z := by
    rw [← List.cons_append, List.getLast?_append, hz]
    rfl
  have hop := descriptionOfFile_err_of_open env ctx.noExclude fd hopen
  simp only [Generate, List.cons_append, List.head?_cons, hfirst,
    Bool.false_eq_true, if_false]
  simp only [addFile_split env ctx.noExclude fd ctx.files [] hop, hgl, hlast]
  simp

/-- Invocation on the back of the parsed list (not the front), schema
file opening fine: the records are appended and the render step fires. -/
theorem Generate_last_parts (env : Env) (param : QStr) (pre : List FileD) (fd : FileD)
    (ctx : GenCtx) (hpre : pre ≠ [])
    (hnod : ((pre ++ [fd]).map FileD.id).Nodup)
    (hopen : (env.protoFiles fd.name).isSome) :
    (Generate env (pre ++ [fd]) fd param ctx).ctx =
      { ctx with files := ctx.files ++ (addFile env ctx.noExclude fd [] []).1 } ∧
    (Generate env (pre ++ [fd]) fd param ctx).rendered = true := by
  obtain ⟨p, ps, rfl⟩ := List.exists_cons_of_ne_nil hpre
  have hfirst : (p.id == fd.id) = false :=
    id_beq_false_of_head p fd ps [fd] hnod (List.mem_cons_self _ _)
  have hgl : (p :: (ps ++ [fd])).getLast? = some fd := by
    rw [← List.cons_append]
    exact List.getLast?_concat _
  have hop := descriptionOfFile_err_of_open env ctx.noExclude fd hopen
  simp only [Generate, List.cons_append, List.head?_cons, hfirst,
    Bool.false_eq_true, if_false]
  simp only [addFile_split env ctx.noExclude fd ctx.files [] hop, hgl]
  have htrue : (fd.id == fd.id) = true := beq_self_eq_true fd.id
  refine ⟨?_, ?_⟩ <;>
  · simp [htrue]
    split <;> rfl

/-- Invocation on a file (not the front) whose schema file fails to
open: the invocation fails with the open error, before any render. -/
theorem Generate_fail_parts (env : Env) (param : QStr) (pre rest' : List FileD) (fd : FileD)
    (ctx : GenCtx) (hpre : pre ≠ [])
    (hnod : ((pre ++ fd :: rest').map FileD.id).Nodup)
    (hbad : env.protoFiles fd.name = none) :
    (Generate env (pre ++ fd :: rest') fd param ctx).ok = false ∧
    (Generate env (pre ++ fd :: rest') fd param ctx).rendered = false ∧
    (Generate env (pre ++ fd :: rest') fd param ctx).err =
      fd.name ++ qs ": " ++ env.ioErrText fd.name := by
  obtain ⟨p, ps, rfl⟩ := List.exists_cons_of_ne_nil hpre
  have hfirst : (p.id == fd.id) = false :=
    id_beq_false_of_head p fd ps (fd :: rest') hnod (List.mem_cons_self _ _)
  have haf := addFile_err_of_open_fail env ctx.noExclude fd ctx.files [] hbad
  simp only [Generate, List.cons_append, List.head?_cons, hfirst,
    Bool.false_eq_true, if_false]
  simp only [haf]
  rw [if_pos (ioMsg_ne_nil fd.name (env.ioErrText fd.name))]
  simp

/-- First invocation with a well-formed parameter, when more files
follow: the configuration is parsed and frozen, the first file's records
are added, no render happens. -/
theorem Generate_first_mid (env : Env) (param : QStr) (fd : FileD) (rest : List FileD)
    (hrest : rest ≠ []) (hnod : ((fd :: rest).map FileD.id).Nodup)
    (hok : (parseParameter env param initialContext).2.1 = true)
    (herr : (parseParameter env param initialContext).2.2 = [])
    (hopen : (env.protoFiles fd.name).isSome) :
    Generate env (fd :: rest) fd param initialContext =
      ⟨{ (parseParameter env param initialContext).1 with
         files := (addFile env (parseParameter env param initialContext).1.noExclude
           fd [] []).1 }, true, false, []⟩ := by
  obtain ⟨z, hz, hzmem⟩ := getLast_of_cons_ne_nil fd rest hrest
  have hlast : (z.id == fd.id) = false := by
    have hnod' : (([] ++ fd :: rest).map FileD.id).Nodup := by simpa using hnod
    exact id_beq_false_of_later fd [] rest z hnod' hzmem
  have hop := descriptionOfFile_err_of_open env
    (parseParameter env param initialContext).1.noExclude fd hopen
  have hfiles : (parseParameter env param initialContext).1.files = [] :=
    (parseParameter_files env param initialContext).trans rfl
  have haf2 := addFile_err_keeps env
    (parseParameter env param initialContext).1.noExclude fd [] [] hop
  simp only [Generate, List.head?_cons, beq_self_eq_true, if_true, hok, hz, hlast, herr,
    hfiles, haf2]
  simp

/-- First invocation with a well-formed parameter on a single-file run:
the configuration is parsed, the file's records added, and the render
step fires. -/
theorem Generate_first_last (env : Env) (param : QStr) (fd : FileD)
    (hok : (parseParameter env param initialContext).2.1 = true)
    (herr : (parseParameter env param initialContext).2.2 = [])
    (hopen : (env.protoFiles fd.name).isSome) :
    (Generate env [fd] fd param initialContext).ctx =
      { (parseParameter env param initialContext).1 with
        files := (addFile env (parseParameter env param initialContext).1.noExclude
          fd [] []).1 } ∧
    (Generate env [fd] fd param initialContext).rendered = true := by
  have hop := descriptionOfFile_err_of_open env
    (parseParameter env param initialContext).1.noExclude fd hopen
  have hfiles : (parseParameter env param initialContext).1.files = [] :=
    (parseParameter_files env param initialContext).trans rfl
  have haf2 := addFile_err_keeps env
    (parseParameter env param initialContext).1.noExclude fd [] [] hop
  simp only [Generate, List.head?_cons, List.getLast?_singleton, beq_self_eq_true, if_true,
    hok, herr, hfiles, haf2]
  refine ⟨?_, ?_⟩ <;>
  · simp
    split <;> rfl

/-- First invocation with a well-formed parameter on a file whose schema
file fails to open: the invocation fails with the open error and nothing
is rendered. -/
theorem Generate_first_fail (env : Env) (param : QStr) (fd : FileD) (rest : List FileD)
    (hok : (parseParameter env param initialContext).2.1 = true)
    (hbad : env.protoFiles fd.name = none) :
    (Generate env (fd :: rest) fd param initialContext).ok = false ∧
    (Generate env (fd :: rest) fd param initialContext).rendered = false ∧
    (Generate env (fd :: rest) fd param initialContext).err =
      fd.name ++ qs ": " ++ env.ioErrText fd.name := by
  have haf := addFile_err_of_open_fail env
    (parseParameter env param initialContext).1.noExclude fd
    (parseParameter env param initialContext).1.files
    (parseParameter env param initialContext).2.2 hbad
  simp only [Generate, List.head?_cons, beq_self_eq_true, if_true, hok, haf]
  rw [if_pos (ioMsg_ne_nil fd.name (env.ioErrText fd.name))]
  simp

/-- Run suffix over files that all open fine, past the first invocation:
the render step fires exactly when the suffix reaches the back of the
list, and its payload is the context's files extended with every
remaining file's records. -/
theorem runFrom_ok (env : Env) (param : QStr) :
    ∀ (rest pre : List FileD) (ctx : GenCtx), pre ≠ [] →
      ((pre ++ rest).map FileD.id).Nodup →
      (∀ f ∈ rest, (env.protoFiles f.name).isSome) →
      (runFrom env param (pre ++ rest) rest pre.length ctx).renders =
        if rest.isEmpty then []
        else [((pre ++ rest).length - 1,
               ctx.files ++ recordsOfList env ctx.noExclude rest)]
  | [], pre, ctx, hpre, hnod, hopen => by simp [runFrom]
  | fd :: rest', pre, ctx, hpre, hnod, hopen => by
    have hopenfd : (env.protoFiles fd.name).isSome := hopen fd (List.mem_cons_self _ _)
    by_cases hrest : rest' = []
    · subst hrest
      obtain ⟨hctx, hrendered⟩ := Generate_last_parts env param pre fd ctx hpre hnod hopenfd
      simp only [runFrom, hrendered, hctx, if_true]
      cases hokg : (Generate env (pre ++ [fd]) fd param ctx).ok <;>
        simp [hokg, runFrom, recordsOfList, List.length_append]
    · have hGen := Generate_mid env param pre rest' fd ctx hpre hrest hnod hopenfd
      have hnod' : (((pre ++ [fd]) ++ rest').map FileD.id).Nodup := by
        rw [← List.append_cons]
        exact hnod
      have hih := runFrom_ok env param rest' (pre ++ [fd])
        { ctx with files := ctx.files ++ (addFile env ctx.noExclude fd [] []).1 }
        (by simp) hnod' (fun f hf => hopen f (List.mem_cons_of_mem _ hf))
      have hemp : rest'.isEmpty = false := by
        cases rest' with
        | nil => exact absurd rfl hrest
        | cons a b => rfl
      rw [← List.append_cons] at hih
      simp only [List.length_append, List.length_cons, List.length_nil] at hih ⊢
      simp only [runFrom, hGen]
      simp only [hemp, if_false, Bool.false_eq_true] at hih
      simp [hih, hemp, recordsOfList, List.append_assoc, Nat.add_assoc, Nat.add_comm 1]

/-- C2: for every run over a non-empty host-provided file list in which
the configuration parses and every schema file opens, the render step is
invoked exactly once, on the invocation whose file is the last element of
the list, and the file list passed to it consists of the records
accumulated from all N input files in order. -/
theorem render_fires_once_on_last_invocation (env : Env) (param : QStr)
    (inputs : List FileD) (hne : inputs ≠ []) (hnod : (inputs.map FileD.id).Nodup)
    (hopen : ∀ f ∈ inputs, (env.protoFiles f.name).isSome)
    (hok : (parseParameter env param initialContext).2.1 = true)
    (herr : (parseParameter env param initialContext).2.2 = []) :
    (runAll env param inputs).renders =
      [(inputs.length - 1,
        recordsOfList env (parseParameter env param initialContext).1.noExclude inputs)] := by
  obtain ⟨fd, rest, rfl⟩ := List.exists_cons_of_ne_nil hne
  have hopenfd := hopen fd (List.mem_cons_self _ _)
  by_cases hrest : rest = []
  · subst hrest
    obtain ⟨hctx, hrendered⟩ := Generate_first_last env param fd hok herr hopenfd
    simp only [runAll, runFrom, hrendered, hctx, if_true]
    cases hokg : (Generate env [fd] fd param initialContext).ok <;>
      simp [hokg, runFrom, recordsOfList]
  · have hGen := Generate_first_mid env param fd rest hrest hnod hok herr hopenfd
    have hnod' : (([fd] ++ rest).map FileD.id).Nodup := by simpa using hnod
    have hih := runFrom_ok env param rest [fd]
      { (parseParameter env param initialContext).1 with
        files := (addFile env (parseParameter env param initialContext).1.noExclude
          fd [] []).1 }
      (by simp) hnod' (fun f hf => hopen f (List.mem_cons_of_mem _ hf))
    have hemp : rest.isEmpty = false := by
      cases rest with
      | nil => exact absurd rfl hrest
      | cons a b => rfl
    simp only [List.cons_append, List.nil_append, List.length_cons, List.length_nil] at hih
    simp only [hemp, Bool.false_eq_true, if_false] at hih
    simp only [runAll, runFrom, hGen]
    simp [hih, recordsOfList, List.length_cons]

/-- Concrete empty schema files with distinct identities. -/
def fileA : FileD := ⟨21, qs "a.proto", [], .nil, [], [], []⟩

def fileB : FileD := ⟨22, qs "b.proto", [], .nil, [], [], []⟩

def fileC : FileD := ⟨23, qs "c.proto", [], .nil, [], [], []⟩

/-- C2 witness: a three-file run with the raw JSON configuration renders
exactly once, on the third (last) invocation, with the records of all
three files. -/
theorem render_fires_once_witness :
    (runAll envTriv (qs "json,out") [fileA, fileB, fileC]).renders =
      [(2, recordsOfList envTriv
        (parseParameter envTriv (qs "json,out") initialContext).1.noExclude
        [fileA, fileB, fileC])] :=
  render_fires_once_on_last_invocation envTriv (qs "json,out") [fileA, fileB, fileC]
    (by simp) (by decide) (fun f _ => rfl) (by decide) (by decide)

/-- Run suffix past the first invocation that reaches a file whose
schema file fails to open (all earlier suffix files opening fine): the
run stops with the open error and no render is ever invoked. -/
theorem runFrom_fail (env : Env) (param : QStr) :
    ∀ (good pre : List FileD) (bad : FileD) (post : List FileD) (ctx : GenCtx), pre ≠ [] →
      ((pre ++ (good ++ bad :: post)).map FileD.id).Nodup →
      (∀ f ∈ good, (env.protoFiles f.name).isSome) →
      env.protoFiles bad.name = none →
      (runFrom env param (pre ++ (good ++ bad :: post)) (good ++ bad :: post)
        pre.length ctx).ok = false ∧
      (runFrom env param (pre ++ (good ++ bad :: post)) (good ++ bad :: post)
        pre.length ctx).renders = [] ∧
      (runFrom env param (pre ++ (good ++ bad :: post)) (good ++ bad :: post)
        pre.length ctx).err = bad.name ++ qs ": " ++ env.ioErrText bad.name
  | [], pre, bad, post, ctx, hpre, hnod, hgood, hbad => by
    have hnod' : ((pre ++ bad :: post).map FileD.id).Nodup := by simpa using hnod
    obtain ⟨h1, h2, h3⟩ := Generate_fail_parts env param pre post bad ctx hpre hnod' hbad
    simp only [List.nil_append] at *
    simp only [runFrom, h1, h2, h3]
    simp
  | g :: good', pre, bad, post, ctx, hpre, hnod, hgood, hbad => by
    have hrest : good' ++ bad :: post ≠ [] := by
      cases good' <;> simp
    have hnod0 : ((pre ++ g :: (good' ++ bad :: post)).map FileD.id).Nodup := by
      simpa using hnod
    have hGen := Generate_mid env param pre (good' ++ bad :: post) g ctx hpre hrest hnod0
      (hgood g (List.mem_cons_self _ _))
    have hnod' : (((pre ++ [g]) ++ (good' ++ bad :: post)).map FileD.id).Nodup := by
      rw [← List.append_cons]
      exact hnod0
    have hih := runFrom_fail env param good' (pre ++ [g]) bad post
      { ctx with files := ctx.files ++ (addFile env ctx.noExclude g [] []).1 }
      (by simp) hnod' (fun f hf => hgood f (List.mem_cons_of_mem _ hf)) hbad
    rw [← List.append_cons] at hih
    simp only [List.length_append, List.length_cons, List.length_nil] at hih ⊢
    simp only [List.cons_append] at hnod0 ⊢
    simp only [runFrom, hGen]
    simp [hih.1, hih.2.1, hih.2.2, Nat.add_comm 1]

/-- C8: if a schema file fails to open during whole-file comment
scanning, the run aborts at that invocation: the overall result is a
failure whose error message is the file name followed by the underlying
I/O failure text, and the render step is never invoked, so no output
artifact is written. -/
theorem open_failure_aborts_run (env : Env) (param : QStr) (good : List FileD)
    (bad : FileD) (post : List FileD)
    (hnod : ((good ++ bad :: post).map FileD.id).Nodup)
    (hgood : ∀ f ∈ good, (env.protoFiles f.name).isSome)
    (hbad : env.protoFiles bad.name = none)
    (hok : (parseParameter env param initialContext).2.1 = true)
    (herr : (parseParameter env param initialContext).2.2 = []) :
    (runAll env param (good ++ bad :: post)).ok = false ∧
    (runAll env param (good ++ bad :: post)).renders = [] ∧
    (runAll env param (good ++ bad :: post)).err =
      bad.name ++ qs ": " ++ env.ioErrText bad.name := by
  cases good with
  | nil =>
    simp only [List.nil_append] at *
    obtain ⟨h1, h2, h3⟩ := Generate_first_fail env param bad post hok hbad
    simp only [runAll, runFrom, h1, h2, h3]
    simp
  | cons g good' =>
    have hrest : good' ++ bad :: post ≠ [] := by
      cases good' <;> simp
    have hnod0 : ((g :: (good' ++ bad :: post)).map FileD.id).Nodup := by simpa using hnod
    have hGen := Generate_first_mid env param g (good' ++ bad :: post) hrest hnod0 hok herr
      (hgood g (List.mem_cons_self _ _))
    have hnod' : (([g] ++ (good' ++ bad :: post)).map FileD.id).Nodup := by
      simpa using hnod0
    have hih := runFrom_fail env param good' [g] bad post
      { (parseParameter env param initialContext).1 with
        files := (addFile env (parseParameter env param initialContext).1.noExclude
          g [] []).1 }
      (by simp) hnod' (fun f hf => hgood f (List.mem_cons_of_mem _ hf)) hbad
    simp only [List.cons_append, List.nil_append, List.length_cons, List.length_nil] at hih
    simp only [List.cons_append, runAll, runFrom, hGen]
    simp [hih.1, hih.2.1, hih.2.2]

/-- Environment in which the file named b.proto fails to open. -/
def envBadB : Env :=
  { envTriv with protoFiles := fun n => if n = qs "b.proto" then none else some [] }

/-- C8 witness: a three-file run whose middle file fails to open aborts
with the error "b.proto: file error" and renders nothing. -/
theorem open_failure_aborts_run_witness :
    (runAll envBadB (qs "json,out") ([fileA] ++ fileB :: [fileC])).ok = false ∧
    (runAll envBadB (qs "json,out") ([fileA] ++ fileB :: [fileC])).renders = [] ∧
    (runAll envBadB (qs "json,out") ([fileA] ++ fileB :: [fileC])).err =
      fileB.name ++ qs ": " ++ envBadB.ioErrText fileB.name :=
  open_failure_aborts_run envBadB (qs "json,out") [fileA] fileB [fileC]
    (by decide) (by intro f hf; rcases List.mem_singleton.mp hf with rfl; rfl)
    (by decide) (by decide) (by decide)

end ProtocGenDoc
